import Mathlib

/-!
Verification of `filedspreproc.py` (class `FileDatasetPreprocessor`).

The Python source is shallowly embedded below.  Paths are modelled as
`String`s and the relevant `os.path` primitives (`join`, `split`,
`splitext`, `normpath`, `abspath`) are translated from CPython's
`posixpath` module, since the code's behaviour under scrutiny depends on
their exact string manipulation.  Python `dict`s of metadata are modelled
as insertion-ordered association lists (`Dict`), Python values occurring
in rows as `PyVal`.  The filesystem seen by one run is modelled as `FS`
(an association list of file paths to contents plus a list of created
directories); `os.walk` is an OS primitive, so its output is a parameter
(`List (String × List String)` of `(root, files)` pairs, as consumed by
`enumerate_files`).  The user-supplied `preprocess_fn` capability is a
parameter returning a `PreprocOutcome`: either a normal return carrying
`(success, message, attributes)` together with the files the capability
wrote, or an exception (`raises`), also carrying any files written before
the fault.  Fallible Python code (assertions, `TypeError`s) is modelled
with `Except String`.

The multi-process run is modelled in two parts:
* a sequential model `run` of the dispatcher loop in which each enqueued
  item is processed immediately by the worker body (adequate for the
  per-item and idempotence claims, which are insensitive to interleaving);
* a synchronous round model of the shutdown protocol (`drainRound`):
  each round the dispatcher saturates the queue with termination markers,
  every live worker then receives one message, and the dispatcher polls
  the pending list exactly as the Python `for`-loop with in-place
  `remove` does (including its skip-after-remove behaviour).
-/

namespace FilePreproc

/-! ### Characters and strings (Python semantics) -/

/-- ASCII lowercasing of one character, as `str.lower` acts on ASCII. -/
def lowerChar (c : Char) : Char :=
  if 'A' ≤ c ∧ c ≤ 'Z' then Char.ofNat (c.toNat + 32) else c

/-- `s.lower()` (ASCII fragment). -/
def strLower (s : String) : String := ⟨s.data.map lowerChar⟩

/-- Length in characters, Python `len(s)`. -/
def strLen (s : String) : Nat := s.data.length

/-- Python slice `s[n:]`. -/
def strDrop (s : String) (n : Nat) : String := ⟨s.data.drop n⟩

/-- Python `s.startswith(pre)`. -/
def strStartsWith (s pre : String) : Bool := List.isPrefixOf pre.data s.data

/-- Index of the last occurrence of `c`, `none` when absent
(`s.rfind(c)` with `-1` mapped to `none`). -/
def lastIdx (c : Char) : List Char → Option Nat
  | [] => Option.none
  | x :: xs =>
    match lastIdx c xs with
    | some i => some (i + 1)
    | Option.none => if x = c then some 0 else Option.none

/-- `s.rfind(c)` as an integer (`-1` when absent). -/
def rfind (c : Char) (cs : List Char) : Int :=
  match lastIdx c cs with
  | Option.none => -1
  | some i => (i : Int)

/-- Python `s.split('/')` on the character list. -/
def splitOnSlash : List Char → List (List Char)
  | [] => [[]]
  | c :: cs =>
    match splitOnSlash cs with
    | [] => [[]]
    | comp :: rest => if c = '/' then [] :: comp :: rest else (c :: comp) :: rest

/-- `'/'.join(...)` on character lists. -/
def intercalateSlash : List (List Char) → List Char
  | [] => []
  | [x] => x
  | x :: y :: xs => x ++ '/' :: intercalateSlash (y :: xs)

/-- Strip trailing `'/'` characters (`head.rstrip('/')`). -/
def rstripSlash (cs : List Char) : List Char :=
  (cs.reverse.dropWhile (fun c => c = '/')).reverse

/-! ### `posixpath` primitives -/

/-- `posixpath.join(a, b)` (two-argument form). -/
def osJoin (a b : String) : String :=
  if strStartsWith b "/" then b
  else if a = "" ∨ a.data.getLast? = some '/' then a ++ b
  else a ++ "/" ++ b

/-- `posixpath.split(p)`: split off the last path component, stripping
trailing slashes from the head unless the head is all slashes. -/
def osSplit (p : String) : String × String :=
  let cs := p.data
  let i : Nat :=
    match lastIdx '/' cs with
    | Option.none => 0
    | some j => j + 1
  let head := cs.take i
  let tail := cs.drop i
  let head' :=
    if head ≠ [] ∧ head ≠ List.replicate head.length '/' then rstripSlash head else head
  (⟨head'⟩, ⟨tail⟩)

/-- `posixpath.splitext(p)` (CPython `genericpath._splitext` with
`sep='/'`, `extsep='.'`): the extension starts at the last dot, provided
it lies after the last separator and at least one non-dot character of
the file name precedes it. -/
def splitext (p : String) : String × String :=
  let cs := p.data
  let sepIndex := rfind '/' cs
  let dotIndex := rfind '.' cs
  if dotIndex > sepIndex then
    if (List.range cs.length).any
        (fun i => decide (sepIndex < (i : Int) ∧ (i : Int) < dotIndex)
          && decide (cs.getD i '.' ≠ '.')) then
      (⟨cs.take dotIndex.toNat⟩, ⟨cs.drop dotIndex.toNat⟩)
    else (p, "")
  else (p, "")

/-- `posixpath.normpath(path)`. -/
def normpath (path : String) : String :=
  if path = "" then "." else
  let cs := path.data
  let initialSlashes : Nat :=
    if strStartsWith path "/" then
      if strStartsWith path "//" ∧ ¬ strStartsWith path "///" then 2 else 1
    else 0
  let comps := splitOnSlash cs
  let newComps := comps.foldl
    (fun acc comp =>
      if comp = [] ∨ comp = ['.'] then acc
      else if comp ≠ ['.', '.'] ∨ (initialSlashes = 0 ∧ acc = [])
          ∨ (acc ≠ [] ∧ acc.getLast? = some ['.', '.']) then
        acc ++ [comp]
      else if acc ≠ [] then acc.dropLast
      else acc)
    ([] : List (List Char))
  let joined := List.replicate initialSlashes '/' ++ intercalateSlash newComps
  if joined = [] then "." else ⟨joined⟩

/-- `posixpath.abspath(path)` with the working directory made explicit. -/
def abspath (cwd path : String) : String :=
  if strStartsWith path "/" then normpath path else normpath (osJoin cwd path)

/-! ### Python values, dictionaries, filesystem -/

/-- Values appearing in metadata rows: `None`, ints, strings. -/
inductive PyVal where
  | none
  | int (n : Int)
  | str (s : String)
deriving DecidableEq, Repr

/-- A Python `dict` as an insertion-ordered association list. -/
abbrev Dict := List (String × PyVal)

/-- `d[k]` as an option (`none` = key absent). -/
def dget? (d : Dict) (k : String) : Option PyVal :=
  match d with
  | [] => Option.none
  | (k', v) :: rest => if k' = k then some v else dget? rest k

/-- `d[k] = v`: update in place if present, else append (dict insertion order). -/
def dset (d : Dict) (k : String) (v : PyVal) : Dict :=
  match d with
  | [] => [(k, v)]
  | (k', v') :: rest => if k' = k then (k, v) :: rest else (k', v') :: dset rest k v

/-- `k in d`. -/
def dcontains (d : Dict) (k : String) : Bool := (dget? d k).isSome

/-- `d.keys()`. -/
def dkeys (d : Dict) : List String := d.map Prod.fst

/-- `set(l1) == set(l2)` for lists of strings. -/
def setEqB (l₁ l₂ : List String) : Bool :=
  l₁.all (fun x => l₂.contains x) && l₂.all (fun x => l₁.contains x)

/-- The destination filesystem as one run observes it: files (path to
contents) and directories created or pre-existing. -/
structure FS where
  files : List (String × String)
  dirs : List String
deriving DecidableEq, Repr

/-- Association-list update used by file writes. -/
def fsSet (l : List (String × String)) (k v : String) : List (String × String) :=
  match l with
  | [] => [(k, v)]
  | (k', v') :: rest => if k' = k then (k, v) :: rest else (k', v') :: fsSet rest k v

/-- Look up a file's contents. -/
def fsGet? (l : List (String × String)) (k : String) : Option String :=
  match l with
  | [] => Option.none
  | (k', v) :: rest => if k' = k then some v else fsGet? rest k

/-- `open(p, "w")` followed by writing `c` (creates or truncates). -/
def writeFile (fs : FS) (p c : String) : FS :=
  { fs with files := fsSet fs.files p c }

/-- `os.path.exists(p)` over the modelled filesystem. -/
def pathExists (fs : FS) (p : String) : Bool :=
  fs.files.any (fun e => e.1 = p) || fs.dirs.contains p

/-- `os.makedirs(p)` (intermediate directories are irrelevant here). -/
def mkdirs (fs : FS) (p : String) : FS :=
  { fs with dirs := p :: fs.dirs }

/-! ### The preprocessor object -/

/-- State of a constructed `FileDatasetPreprocessor` (the fields set by
`__init__`; the `preprocess_fn` capability is passed separately to the
functions that call it). -/
structure Preprocessor where
  src_dir : String
  dest_dir : String
  input_extension : String
  output_extension : String
  metadata_filename : Option String
  metadata_columns : Option (List String)
  column_order : Option (List String)
  csv_file_path : Option String
  num_processes : Nat
deriving DecidableEq, Repr

/-- `FileDatasetPreprocessor.__init__` (source lines 31-68).  `none`
models the constructor raising (the `assert` at line 56, or the
`IndexError` from indexing an empty extension string).  Note line 65 of
the source builds `column_order` from the *original* `metadata_columns`
argument, while the reserved names `path`/`success`/`message` are removed
(first occurrence each, as `list.remove` does) only from the copy stored
in `self.metadata_columns`. -/
def mkPreprocessor (cwd src_dir dest_dir : String) (input_extension : String)
    (output_extension : Option String) (metadata_filename : Option String)
    (metadata_columns : Option (List String)) (num_processes : Nat) :
    Option Preprocessor :=
  if input_extension.data = [] then Option.none
  else
    let input_ext :=
      if input_extension.data.headD ' ' ≠ '.' then "." ++ input_extension else input_extension
    let output0 :=
      match output_extension with
      | Option.none => input_ext
      | some o => o
    if output0.data = [] then Option.none
    else
      let output_ext :=
        if output0.data.headD ' ' ≠ '.' then "." ++ output0 else output0
      let src := abspath cwd src_dir
      let dst := abspath cwd dest_dir
      match metadata_filename with
      | Option.none =>
        some ⟨src, dst, input_ext, output_ext, Option.none, metadata_columns,
              Option.none, Option.none, num_processes⟩
      | some fname =>
        match metadata_columns with
        | Option.none => Option.none
        | some cols =>
          let stripped := ((cols.erase "path").erase "success").erase "message"
          some ⟨src, dst, input_ext, output_ext, some fname, some stripped,
                some (["path", "success", "message"] ++ cols),
                some (osJoin dest_dir fname), num_processes⟩

/-! ### Metadata log writer -/

/-- `write_metadata` (source lines 215-227).  Returns `ok none` when no
metadata file is configured (no-op, no file access), `ok (some row)` for
the single tab-delimited record appended (values in `column_order`
order), and `error` for the failed assertion when the row's key set does
not equal the configured column set.  A `KeyError` in
`metadata[k]` is impossible once the assertion holds, so the lookup uses
a default. -/
def write_metadata (p : Preprocessor) (metadata : Dict) :
    Except String (Option (List PyVal)) :=
  match p.metadata_filename with
  | Option.none => Except.ok Option.none
  | some _ =>
    match p.column_order with
    | Option.none => Except.error "TypeError: column_order is None"
    | some order =>
      if setEqB (dkeys metadata) order then
        Except.ok (some (order.map (fun k => (dget? metadata k).getD PyVal.none)))
      else Except.error "AssertionError"

/-! ### Worker body -/

/-- Result of one invocation of the `preprocess_fn` capability:
a normal return `(success, message, attributes)` together with the files
the capability wrote during the call, or an exception (`raises`), also
carrying any files written before the fault. -/
inductive PreprocOutcome where
  | ok (success : Bool) (message : String) (attrs : Dict)
      (writes : List (String × String))
  | raises (writes : List (String × String))
deriving DecidableEq, Repr

/-- The files a capability invocation writes. -/
def outcomeWrites : PreprocOutcome → List (String × String)
  | PreprocOutcome.ok _ _ _ w => w
  | PreprocOutcome.raises w => w

/-- Apply the capability's file writes to the filesystem. -/
def applyWrites (fs : FS) (ws : List (String × String)) : FS :=
  ws.foldl (fun fs w => writeFile fs w.1 w.2) fs

/-- The padding loop of `worker_fn` (source lines 200-203): for each
configured column not yet a key of the dict, set it to `None`. -/
def padColumns (cols : List String) (d : Dict) : Dict :=
  match cols with
  | [] => d
  | c :: rest => padColumns rest (if dcontains d c then d else dset d c PyVal.none)

/-- Lines 200-209 of `worker_fn`: pad missing configured columns with
`None` (iterating `self.metadata_columns`; a `TypeError` if it is
`None`), then set `path` (source path with the `len(self.src_dir)+1`
character prefix sliced off), `success` (1/0) and `message`. -/
def worker_build_metadata (p : Preprocessor) (success : Bool) (message : String)
    (metadata : Dict) (src_path : String) : Except String Dict :=
  match p.metadata_columns with
  | Option.none => Except.error "TypeError: NoneType is not iterable"
  | some cols =>
    let m := padColumns cols metadata
    let rel := strDrop src_path (strLen p.src_dir + 1)
    Except.ok (dset (dset (dset m "path" (PyVal.str rel))
      "success" (PyVal.int (if success then 1 else 0))) "message" (PyVal.str message))

/-- The body of `worker_fn` for one dequeued `(src_path, dest_path)` item
(source lines 177-213).  The `try` block invokes the capability; on a
normal return with `success = False` it creates the empty placeholder
file; an exception is swallowed (leaving `success=False`, `message=""`,
`metadata={}`, and writing no placeholder).  The padding loop and the
metadata write run after the handler; an error there is uncaught and
kills the worker process, modelled as `Except.error`.  On success the
updated filesystem and log (with the appended row, if a log is
configured) are returned. -/
def worker_process_item (p : Preprocessor) (outcome : PreprocOutcome)
    (src_path dest_path : String) (fs : FS) (log : List (List PyVal)) :
    Except String (FS × List (List PyVal)) :=
  let r :=
    match outcome with
    | PreprocOutcome.ok s m attrs ws =>
      let fs' := applyWrites fs ws
      (s, m, attrs, if s then fs' else writeFile fs' dest_path "")
    | PreprocOutcome.raises ws => (false, "", ([] : Dict), applyWrites fs ws)
  match worker_build_metadata p r.1 r.2.1 r.2.2.1 src_path with
  | Except.error e => Except.error e
  | Except.ok m =>
    match write_metadata p m with
    | Except.error e => Except.error e
    | Except.ok Option.none => Except.ok (r.2.2.2, log)
    | Except.ok (some row) => Except.ok (r.2.2.2, log ++ [row])

/-! ### Enumerator -/

/-- `enumerate_files` (source lines 229-240) over the output of
`os.walk(self.src_dir)`, given as `(root, files)` pairs.  Each root is
checked by the source's `assert src_root.startswith(self.src_dir)`
(modelled as `Except.error` on failure); a file is yielded iff its
extension, lowercased, equals `self.input_extension` as stored. -/
def enumerate_files (p : Preprocessor) :
    List (String × List String) → Except String (List String)
  | [] => Except.ok []
  | (root, files) :: rest =>
    if strStartsWith root p.src_dir then
      match enumerate_files p rest with
      | Except.error e => Except.error e
      | Except.ok ys =>
        Except.ok ((files.filter
          (fun f => strLower (splitext f).2 = p.input_extension)).map
            (fun f => osJoin root f) ++ ys)
    else Except.error "AssertionError"

/-! ### Dispatcher run (sequential model) -/

/-- Dispatcher loop state (`run`, source lines 97-139): the destination
filesystem, the rows appended to the metadata log so far, the cached
current source directory and its mapped destination directory, the
enqueued work items in order, and the count of enqueued items. -/
structure RunState where
  fs : FS
  log : List (List PyVal)
  cur_src_dir : Option String
  cur_dest_dir : String
  enqueued : List (String × String)
  count : Nat
deriving DecidableEq, Repr

/-- The destination path the dispatcher maps a source path to
(lines 112-128 with the directory cache unfolded): replace the
`src_dir` prefix of the containing directory by `dest_dir` and the
extension by `output_extension`. -/
def dest_path_of (p : Preprocessor) (src_path : String) : String :=
  let dir := (osSplit src_path).1
  let filename := (osSplit src_path).2
  let cur_dest_dir := osJoin p.dest_dir (strDrop dir (strLen p.src_dir + 1))
  osJoin cur_dest_dir ((splitext filename).1 ++ p.output_extension)

/-- The "new directory entered" step of the dispatcher loop (source
lines 114-124): when the containing directory changes, recompute the
cached destination directory and create it if absent. -/
def run_item_enter_dir (p : Preprocessor) (st : RunState) (dir : String) : RunState :=
  if st.cur_src_dir ≠ some dir then
    let cur_dest_dir := osJoin p.dest_dir (strDrop dir (strLen p.src_dir + 1))
    let fs' := if pathExists st.fs cur_dest_dir then st.fs else mkdirs st.fs cur_dest_dir
    { st with cur_src_dir := some dir, cur_dest_dir := cur_dest_dir, fs := fs' }
  else st

/-- One iteration of the dispatcher's `for src_path in
self.enumerate_files()` body (source lines 104-139), with the enqueued
item processed immediately by the worker body (sequential model of the
worker pool).  An uncaught worker-side error surfaces as `Except.error`. -/
def run_item (p : Preprocessor) (fn : String → String → PreprocOutcome)
    (st : RunState) (src_path : String) : Except String RunState :=
  let filename := (osSplit src_path).2
  let st1 := run_item_enter_dir p st (osSplit src_path).1
  let dest_path := osJoin st1.cur_dest_dir ((splitext filename).1 ++ p.output_extension)
  if pathExists st1.fs dest_path then Except.ok st1
  else
    match worker_process_item p (fn src_path dest_path) src_path dest_path st1.fs st1.log with
    | Except.error e => Except.error e
    | Except.ok r =>
      Except.ok { st1 with
                  fs := r.1
                  log := r.2
                  enqueued := st1.enqueued ++ [(src_path, dest_path)]
                  count := st1.count + 1 }

/-- The matching files of one `os.walk` entry, in the dispatcher's order. -/
def matchingFiles (p : Preprocessor) (files : List String) : List String :=
  files.filter (fun f => strLower (splitext f).2 = p.input_extension)

/-- Run the dispatcher body over the matching files of one directory. -/
def run_files (p : Preprocessor) (fn : String → String → PreprocOutcome)
    (root : String) : List String → RunState → Except String RunState
  | [], st => Except.ok st
  | f :: rest, st =>
    match run_item p fn st (osJoin root f) with
    | Except.error e => Except.error e
    | Except.ok st' => run_files p fn root rest st'

/-- Run the dispatcher over the whole walk, including the enumerator's
root assertion and extension filter. -/
def run_walk (p : Preprocessor) (fn : String → String → PreprocOutcome) :
    List (String × List String) → RunState → Except String RunState
  | [], st => Except.ok st
  | (root, files) :: rest, st =>
    if strStartsWith root p.src_dir then
      match run_files p fn root (matchingFiles p files) st with
      | Except.error e => Except.error e
      | Except.ok st' => run_walk p fn rest st'
    else Except.error "AssertionError"

/-- A whole run (`run`, source lines 77-155) in the sequential model:
start from the initial filesystem with nothing enqueued and no log rows,
and stream the enumerated, filtered files through the dispatcher body. -/
def run (p : Preprocessor) (fn : String → String → PreprocOutcome)
    (walkOut : List (String × List String)) (fs0 : FS) : Except String RunState :=
  run_walk p fn walkOut ⟨fs0, [], Option.none, "", [], 0⟩

/-! ### Shutdown protocol (draining) -/

/-- A queue entry after enumeration: a leftover work item or a
termination marker (`None`). -/
inductive Msg where
  | item
  | marker
deriving DecidableEq, Repr

/-- Draining state: the bounded queue's contents, the workers still
running, and the dispatcher's `processes_alive` list (pending joins). -/
structure DrainState where
  queue : List Msg
  alive : List Nat
  pending : List Nat
deriving DecidableEq, Repr

/-- `while not queue.full(): queue.put(None)` — saturate the queue with
termination markers up to its capacity. -/
def fillQueue (cap : Nat) (q : List Msg) : List Msg :=
  q ++ List.replicate (cap - q.length) Msg.marker

/-- One message receipt per live worker: each worker blocked in
`input_queue.get` takes the next message while one is available; a
marker makes the worker break out of its loop (it leaves `alive`), a
leftover item is processed and the worker stays. -/
def workerPhase : List Nat → List Msg → List Nat × List Msg
  | [], q => ([], q)
  | w :: ws, [] => (w :: ws, [])
  | w :: ws, m :: q =>
    match workerPhase ws q with
    | (rest, q') =>
      match m with
      | Msg.marker => (rest, q')
      | Msg.item => (w :: rest, q')

/-- The dispatcher's poll `for p in processes_alive: if not p.is_alive():
processes_alive.remove(p); p.join()` — Python index-based iteration over
a list mutated in place, so removing an element skips the next one; the
enclosing `while` loop repeats the scan. -/
def pollScanAux (alive : List Nat) (l : List Nat) (i : Nat) : List Nat :=
  if h : i < l.length then
    if alive.contains (l.get ⟨i, h⟩) then pollScanAux alive l (i + 1)
    else pollScanAux alive (l.erase (l.get ⟨i, h⟩)) (i + 1)
  else l
termination_by l.length - i
decreasing_by
  · omega
  · have hx : l.get ⟨i, h⟩ ∈ l := l.get_mem i h
    have := List.length_erase_of_mem hx
    omega

/-- One round of the shutdown protocol (source lines 141-153 together
with the worker loop, lines 168-175), as a synchronous abstraction of
the concurrent execution: the dispatcher saturates the queue with
markers, every live worker then receives one message, and the dispatcher
performs one poll scan of its pending list. -/
def drainRound (cap : Nat) (s : DrainState) : DrainState :=
  let q1 := fillQueue cap s.queue
  let r := workerPhase s.alive q1
  { queue := r.2, alive := r.1, pending := pollScanAux r.1 s.pending 0 }

/-- Iterate `n` rounds of the shutdown protocol. -/
def drainRun (cap : Nat) : Nat → DrainState → DrainState
  | 0, s => s
  | n + 1, s => drainRun cap n (drainRound cap s)

/-- Number of leftover work items in the queue. -/
def itemCount : List Msg → Nat
  | [] => 0
  | Msg.item :: q => itemCount q + 1
  | Msg.marker :: q => itemCount q

/-- Termination measure of the worker phase: live workers plus leftover
items. -/
def drainMeasure (s : DrainState) : Nat := s.alive.length + itemCount s.queue

/-! ### Helper lemmas -/

theorem setEqB_iff (l₁ l₂ : List String) :
    setEqB l₁ l₂ = true ↔ (∀ x, x ∈ l₁ ↔ x ∈ l₂) := by
  unfold setEqB
  rw [Bool.and_eq_true, List.all_eq_true, List.all_eq_true]
  constructor
  · rintro ⟨h₁, h₂⟩ x
    exact ⟨fun hx => List.elem_iff.mp (h₁ x hx), fun hx => List.elem_iff.mp (h₂ x hx)⟩
  · intro h
    exact ⟨fun x hx => List.elem_iff.mpr ((h x).mp hx),
           fun x hx => List.elem_iff.mpr ((h x).mpr hx)⟩

theorem dget?_dset_self (d : Dict) (k : String) (v : PyVal) :
    dget? (dset d k v) k = some v := by
  induction d with
  | nil => simp [dset, dget?]
  | cons e rest ih =>
    by_cases h : e.1 = k
    · simp [dset, dget?, h]
    · simp [dset, dget?, h, ih]

theorem dget?_dset_ne (d : Dict) (k k' : String) (v : PyVal) (h : k ≠ k') :
    dget? (dset d k v) k' = dget? d k' := by
  induction d with
  | nil => simp [dset, dget?, h]
  | cons e rest ih =>
    by_cases he : e.1 = k
    · simp [dset, dget?, he, h]
    · simp only [dset, dget?, if_neg he]
      by_cases he' : e.1 = k'
      · simp [dget?, he']
      · simp [dget?, he', ih]

theorem mem_dkeys_iff_isSome (d : Dict) (x : String) :
    x ∈ dkeys d ↔ (dget? d x).isSome := by
  induction d with
  | nil => simp [dkeys, dget?]
  | cons e rest ih =>
    by_cases h : e.1 = x
    · simp [dkeys, dget?, h]
    · simp only [dkeys, List.map_cons, List.mem_cons, dget?, if_neg h]
      rw [← dkeys]
      constructor
      · rintro (hx | hx)
        · exact absurd hx.symm h
        · exact ih.mp hx
      · intro hx
        exact Or.inr (ih.mpr hx)

theorem dget?_padColumns_of_some (cols : List String) (d : Dict) (x : String)
    (v : PyVal) (h : dget? d x = some v) :
    dget? (padColumns cols d) x = some v := by
  induction cols generalizing d with
  | nil => simpa [padColumns] using h
  | cons c rest ih =>
    simp only [padColumns]
    by_cases hc : dcontains d c = true
    · rw [if_pos hc]; exact ih d h
    · rw [if_neg hc]
      apply ih
      by_cases hcx : c = x
      · subst hcx
        have hcc : dcontains d c = true := by simp [dcontains, h]
        exact absurd hcc hc
      · rwa [dget?_dset_ne d c x PyVal.none hcx]

theorem dget?_padColumns_of_none_mem (cols : List String) (d : Dict) (x : String)
    (h : dget? d x = Option.none) (hx : x ∈ cols) :
    dget? (padColumns cols d) x = some PyVal.none := by
  induction cols generalizing d with
  | nil => cases hx
  | cons c rest ih =>
    simp only [padColumns]
    by_cases hcx : c = x
    · subst hcx
      have hc : dcontains d c = false := by simp [dcontains, h]
      rw [if_neg (by simp [hc])]
      exact dget?_padColumns_of_some rest _ c PyVal.none (dget?_dset_self d c PyVal.none)
    · have hx' : x ∈ rest := by
        rcases List.mem_cons.mp hx with h' | h'
        · exact absurd h'.symm hcx
        · exact h'
      by_cases hc : dcontains d c = true
      · rw [if_pos hc]; exact ih d h hx'
      · rw [if_neg hc]
        exact ih _ (by rwa [dget?_dset_ne d c x PyVal.none hcx]) hx'

theorem dget?_padColumns_of_none_notMem (cols : List String) (d : Dict) (x : String)
    (h : dget? d x = Option.none) (hx : x ∉ cols) :
    dget? (padColumns cols d) x = Option.none := by
  induction cols generalizing d with
  | nil => simpa [padColumns] using h
  | cons c rest ih =>
    have hcx : c ≠ x := fun he => hx (he ▸ List.mem_cons_self c rest)
    have hx' : x ∉ rest := fun h' => hx (List.mem_cons_of_mem c h')
    simp only [padColumns]
    by_cases hc : dcontains d c = true
    · rw [if_pos hc]; exact ih d h hx'
    · rw [if_neg hc]
      exact ih _ (by rwa [dget?_dset_ne d c x PyVal.none hcx]) hx'

theorem isSome_padColumns (cols : List String) (d : Dict) (x : String) :
    (dget? (padColumns cols d) x).isSome ↔ ((dget? d x).isSome ∨ x ∈ cols) := by
  cases h : dget? d x with
  | some v =>
    rw [dget?_padColumns_of_some cols d x v h]
    simp
  | none =>
    by_cases hx : x ∈ cols
    · rw [dget?_padColumns_of_none_mem cols d x h hx]
      simp [hx]
    · rw [dget?_padColumns_of_none_notMem cols d x h hx]
      simp [hx]

theorem mem_stripped_iff (cols : List String) (x : String)
    (h1 : x ≠ "path") (h2 : x ≠ "success") (h3 : x ≠ "message") :
    x ∈ ((cols.erase "path").erase "success").erase "message" ↔ x ∈ cols := by
  rw [List.mem_erase_of_ne h3, List.mem_erase_of_ne h2, List.mem_erase_of_ne h1]

theorem stripped_subset (cols : List String) :
    ((cols.erase "path").erase "success").erase "message" ⊆ cols :=
  fun _ h => List.erase_subset _ _ (List.erase_subset _ _ (List.erase_subset _ _ h))

/-- Fields of a preprocessor constructed with a metadata file name and a
column list: the stored column copy is the stripped one, the configured
column order is the three fixed columns followed by the original user
list. -/
theorem mkPreprocessor_metadata_fields (cwd s d ext : String) (oext : Option String)
    (fname : String) (cols : List String) (np : Nat) (p : Preprocessor)
    (hp : mkPreprocessor cwd s d ext oext (some fname) (some cols) np = some p) :
    p.metadata_filename = some fname ∧
    p.metadata_columns = some (((cols.erase "path").erase "success").erase "message") ∧
    p.column_order = some (["path", "success", "message"] ++ cols) := by
  simp only [mkPreprocessor] at hp
  repeat' split at hp
  all_goals cases hp
  all_goals exact ⟨rfl, rfl, rfl⟩

/-- Fields of a preprocessor constructed without a metadata file name:
the column argument is stored as passed (no stripping, no column order). -/
theorem mkPreprocessor_no_metadata_fields (cwd s d ext : String) (oext : Option String)
    (mcols : Option (List String)) (np : Nat) (p : Preprocessor)
    (hp : mkPreprocessor cwd s d ext oext Option.none mcols np = some p) :
    p.metadata_filename = Option.none ∧ p.metadata_columns = mcols := by
  simp only [mkPreprocessor] at hp
  repeat' split at hp
  all_goals cases hp
  all_goals exact ⟨rfl, rfl⟩

theorem fsGet?_fsSet_self (l : List (String × String)) (k v : String) :
    fsGet? (fsSet l k v) k = some v := by
  induction l with
  | nil => simp [fsSet, fsGet?]
  | cons e rest ih =>
    by_cases h : e.1 = k
    · simp [fsSet, fsGet?, h]
    · simp [fsSet, fsGet?, h, ih]

theorem fsGet?_fsSet_ne (l : List (String × String)) (k x v : String) (h : k ≠ x) :
    fsGet? (fsSet l k v) x = fsGet? l x := by
  induction l with
  | nil => simp [fsSet, fsGet?, h]
  | cons e rest ih =>
    by_cases he : e.1 = k
    · simp [fsSet, fsGet?, he, h]
    · simp only [fsSet, if_neg he]
      by_cases he' : e.1 = x
      · simp [fsGet?, he']
      · simp [fsGet?, he', ih]

theorem pathExists_iff (fs : FS) (x : String) :
    pathExists fs x = true ↔ ((fsGet? fs.files x).isSome ∨ x ∈ fs.dirs) := by
  rw [pathExists, Bool.or_eq_true]
  have hdirs : fs.dirs.contains x = true ↔ x ∈ fs.dirs :=
    ⟨fun h => List.elem_iff.mp h, fun h => List.elem_iff.mpr h⟩
  refine or_congr ?_ hdirs
  rw [List.any_eq_true]
  induction fs.files with
  | nil => simp [fsGet?]
  | cons e rest ih =>
    by_cases h : e.1 = x
    · simp [fsGet?, h]
    · simp only [List.mem_cons, fsGet?, if_neg h]
      constructor
      · rintro ⟨e', he', hex⟩
        have hex' : e'.1 = x := of_decide_eq_true hex
        rcases he' with rfl | hmem
        · exact absurd hex' h
        · exact ih.mp ⟨e', hmem, hex⟩
      · intro hx
        obtain ⟨e', hmem, hex⟩ := ih.mpr hx
        exact ⟨e', Or.inr hmem, hex⟩

theorem pathExists_writeFile_mono (fs : FS) (q c x : String)
    (h : pathExists fs x = true) : pathExists (writeFile fs q c) x = true := by
  rw [pathExists_iff] at h ⊢
  rcases h with h | h
  · left
    by_cases hq : q = x
    · subst hq; rw [writeFile]; simp [fsGet?_fsSet_self]
    · rw [writeFile]; simpa [fsGet?_fsSet_ne fs.files q x c hq] using h
  · exact Or.inr h

theorem pathExists_mkdirs_mono (fs : FS) (q x : String)
    (h : pathExists fs x = true) : pathExists (mkdirs fs q) x = true := by
  rw [pathExists_iff] at h ⊢
  rcases h with h | h
  · exact Or.inl h
  · exact Or.inr (List.mem_cons_of_mem _ h)

theorem pathExists_applyWrites_mono (ws : List (String × String)) (fs : FS) (x : String)
    (h : pathExists fs x = true) : pathExists (applyWrites fs ws) x = true := by
  induction ws generalizing fs with
  | nil => exact h
  | cons w rest ih =>
    exact ih (writeFile fs w.1 w.2) (pathExists_writeFile_mono fs w.1 w.2 x h)

theorem applyWrites_dirs (ws : List (String × String)) (fs : FS) :
    (applyWrites fs ws).dirs = fs.dirs := by
  induction ws generalizing fs with
  | nil => rfl
  | cons w rest ih => exact ih (writeFile fs w.1 w.2)

theorem fsGet?_applyWrites_ne (ws : List (String × String)) (fs : FS) (x : String)
    (hx : ∀ w ∈ ws, w.1 ≠ x) :
    fsGet? (applyWrites fs ws).files x = fsGet? fs.files x := by
  induction ws generalizing fs with
  | nil => rfl
  | cons w rest ih =>
    rw [applyWrites, List.foldl_cons, ← applyWrites, ih _
      (fun w' hw' => hx w' (List.mem_cons_of_mem _ hw')), writeFile]
    exact fsGet?_fsSet_ne fs.files w.1 x w.2 (hx w (List.mem_cons_self _ _))

theorem pathExists_writes_target (ws : List (String × String)) (fs : FS) (w : String × String)
    (hw : w ∈ ws) : pathExists (applyWrites fs ws) w.1 = true := by
  induction ws generalizing fs with
  | nil => cases hw
  | cons w' rest ih =>
    rcases List.mem_cons.mp hw with rfl | hmem
    · rw [applyWrites, List.foldl_cons, ← applyWrites]
      apply pathExists_applyWrites_mono
      rw [pathExists_iff, writeFile]
      exact Or.inl (by simp [fsGet?_fsSet_self])
    · rw [applyWrites, List.foldl_cons, ← applyWrites]
      exact ih _ hmem

theorem pathExists_writeFile_self (fs : FS) (q c : String) :
    pathExists (writeFile fs q c) q = true := by
  rw [pathExists_iff, writeFile]
  exact Or.inl (by simp [fsGet?_fsSet_self])

theorem strStartsWith_append (a t : String) : strStartsWith (a ++ t) a = true := by
  have h : (a ++ t).data = a.data ++ t.data := rfl
  rw [strStartsWith, h, List.isPrefixOf_iff_prefix]
  exact List.prefix_append _ _

theorem strStartsWith_trans (a b c : String) (h₁ : strStartsWith b a = true)
    (h₂ : strStartsWith c b = true) : strStartsWith c a = true := by
  rw [strStartsWith, List.isPrefixOf_iff_prefix] at h₁ h₂ ⊢
  exact h₁.trans h₂

theorem strStartsWith_osJoin (root f : String) (hf : strStartsWith f "/" = false) :
    strStartsWith (osJoin root f) root = true := by
  simp only [osJoin, hf]
  rw [if_neg (by simp)]
  split
  · exact strStartsWith_append root f
  · have h : root ++ "/" ++ f = root ++ ("/" ++ f) := by
      simp [String.append_assoc]
    rw [h]
    exact strStartsWith_append root ("/" ++ f)

theorem ite_except_inv {α β : Type} {c : Prop} [inst : Decidable c] {a : α} {e : β}
    {r : Except β α} (h : (if c then Except.ok a else Except.error e) = r) :
    (c ∧ r = Except.ok a) ∨ (¬ c ∧ r = Except.error e) := by
  by_cases hc : c
  · rw [if_pos hc] at h
    exact Or.inl ⟨hc, h.symm⟩
  · rw [if_neg hc] at h
    exact Or.inr ⟨hc, h.symm⟩

/-- The success flag the worker ends up with after the `try` block:
the capability's flag on a normal return, `False` after an exception. -/
def workerSuccess : PreprocOutcome → Bool
  | PreprocOutcome.ok s _ _ _ => s
  | PreprocOutcome.raises _ => false

theorem worker_process_item_mono (p : Preprocessor) (outcome : PreprocOutcome)
    (src dest : String) (fs : FS) (log : List (List PyVal)) (fs2 : FS)
    (log2 : List (List PyVal))
    (h : worker_process_item p outcome src dest fs log = Except.ok (fs2, log2)) :
    (∀ x, pathExists fs x = true → pathExists fs2 x = true) ∧
    (∃ tail, log2 = log ++ tail) := by
  have hfs1 : ∀ fs1 : FS,
      (∀ x, pathExists fs x = true → pathExists fs1 x = true) →
      (match worker_build_metadata p (workerSuccess outcome)
          (match outcome with
            | PreprocOutcome.ok _ m _ _ => m
            | PreprocOutcome.raises _ => "")
          (match outcome with
            | PreprocOutcome.ok _ _ a _ => a
            | PreprocOutcome.raises _ => []) src with
        | Except.error e => Except.error e
        | Except.ok m =>
          match write_metadata p m with
          | Except.error e => Except.error e
          | Except.ok Option.none => Except.ok (fs1, log)
          | Except.ok (some row) => Except.ok (fs1, log ++ [row])) = Except.ok (fs2, log2) →
      (∀ x, pathExists fs x = true → pathExists fs2 x = true) ∧
      (∃ tail, log2 = log ++ tail) := by
    intro fs1 hmono hh
    split at hh
    · cases hh
    · split at hh
      · cases hh
      · cases hh
        exact ⟨hmono, [], by simp⟩
      · cases hh
        exact ⟨hmono, [_], rfl⟩
  cases outcome with
  | ok s msg attrs ws =>
    cases s with
    | true =>
      refine hfs1 (applyWrites fs ws)
        (fun x hx => pathExists_applyWrites_mono ws fs x hx) ?_
      simpa only [worker_process_item, workerSuccess] using h
    | false =>
      refine hfs1 (writeFile (applyWrites fs ws) dest "")
        (fun x hx => pathExists_writeFile_mono _ dest "" x
          (pathExists_applyWrites_mono ws fs x hx)) ?_
      simpa only [worker_process_item, workerSuccess] using h
  | raises ws =>
    refine hfs1 (applyWrites fs ws)
      (fun x hx => pathExists_applyWrites_mono ws fs x hx) ?_
    simpa only [worker_process_item, workerSuccess] using h

theorem worker_process_item_fs (p : Preprocessor) (outcome : PreprocOutcome)
    (src dest : String) (fs : FS) (log : List (List PyVal)) (fs2 : FS)
    (log2 : List (List PyVal))
    (h : worker_process_item p outcome src dest fs log = Except.ok (fs2, log2)) :
    fs2 = (match outcome with
      | PreprocOutcome.ok s _ _ ws =>
        if s then applyWrites fs ws else writeFile (applyWrites fs ws) dest ""
      | PreprocOutcome.raises ws => applyWrites fs ws) := by
  have main : ∀ (σ : Bool) (msg : String) (attrs : Dict) (fs1 : FS),
      (match worker_build_metadata p σ msg attrs src with
        | Except.error e => Except.error e
        | Except.ok m =>
          match write_metadata p m with
          | Except.error e => Except.error e
          | Except.ok Option.none => Except.ok (fs1, log)
          | Except.ok (some row) => Except.ok (fs1, log ++ [row]))
        = Except.ok (fs2, log2) → fs2 = fs1 := by
    intro σ msg attrs fs1 hh
    split at hh
    · cases hh
    · split at hh
      · cases hh
      · cases hh; rfl
      · cases hh; rfl
  cases outcome with
  | ok s msg attrs ws =>
    exact main s msg attrs _ (by simpa only [worker_process_item] using h)
  | raises ws =>
    exact main false "" [] _ (by simpa only [worker_process_item] using h)

theorem worker_process_item_row (fname : String) (cols : List String) (p : Preprocessor)
    (hf : p.metadata_filename = some fname)
    (hcols : p.metadata_columns
      = some (((cols.erase "path").erase "success").erase "message"))
    (horder : p.column_order = some (["path", "success", "message"] ++ cols))
    (outcome : PreprocOutcome) (src dest : String) (fs : FS) (log : List (List PyVal))
    (fs2 : FS) (log2 : List (List PyVal))
    (h : worker_process_item p outcome src dest fs log = Except.ok (fs2, log2)) :
    ∃ row, log2 = log ++ [row] ∧
      row.get? 0 = some (PyVal.str (strDrop src (strLen p.src_dir + 1))) ∧
      row.get? 1 = some (PyVal.int (if workerSuccess outcome then 1 else 0)) := by
  have main : ∀ (σ : Bool) (msg : String) (attrs : Dict) (fs1 : FS),
      (match worker_build_metadata p σ msg attrs src with
        | Except.error e => Except.error e
        | Except.ok m =>
          match write_metadata p m with
          | Except.error e => Except.error e
          | Except.ok Option.none => Except.ok (fs1, log)
          | Except.ok (some row) => Except.ok (fs1, log ++ [row]))
        = Except.ok (fs2, log2) →
      ∃ row, log2 = log ++ [row] ∧
        row.get? 0 = some (PyVal.str (strDrop src (strLen p.src_dir + 1))) ∧
        row.get? 1 = some (PyVal.int (if σ then 1 else 0)) := by
    intro σ msg attrs fs1 hh
    simp only [worker_build_metadata, hcols, write_metadata, hf, horder] at hh
    split at hh
    · cases hh
    · rename_i heq
      rcases ite_except_inv heq with ⟨_, hr⟩ | ⟨_, hr⟩
      · exact Option.noConfusion (Except.ok.inj hr)
      · exact Except.noConfusion hr
    · rename_i row heq
      cases hh
      rcases ite_except_inv heq with ⟨_, hr⟩ | ⟨_, hr⟩
      · cases Option.some.inj (Except.ok.inj hr)
        refine ⟨_, rfl, ?_, ?_⟩
        · show some ((dget? (dset (dset (dset _ "path" _) "success" _) "message" _)
              "path").getD PyVal.none) = _
          rw [dget?_dset_ne _ "message" "path" _ (by decide),
            dget?_dset_ne _ "success" "path" _ (by decide), dget?_dset_self]
          rfl
        · show some ((dget? (dset (dset (dset _ "path" _) "success" _) "message" _)
              "success").getD PyVal.none) = _
          rw [dget?_dset_ne _ "message" "success" _ (by decide), dget?_dset_self]
          rfl
      · exact Except.noConfusion hr
  cases outcome with
  | ok s msg attrs ws =>
    simp only [workerSuccess]
    exact main s msg attrs _ (by simpa only [worker_process_item] using h)
  | raises ws =>
    simp only [workerSuccess]
    exact main false "" [] _ (by simpa only [worker_process_item] using h)

theorem worker_process_item_files_ne (p : Preprocessor) (outcome : PreprocOutcome)
    (src dest : String) (fs : FS) (log : List (List PyVal)) (fs2 : FS)
    (log2 : List (List PyVal))
    (h : worker_process_item p outcome src dest fs log = Except.ok (fs2, log2))
    (x : String) (hxd : x ≠ dest)
    (hxw : ∀ w ∈ outcomeWrites outcome, w.1 ≠ x) :
    fsGet? fs2.files x = fsGet? fs.files x := by
  rw [worker_process_item_fs p outcome src dest fs log fs2 log2 h]
  cases outcome with
  | ok s msg attrs ws =>
    have hws : fsGet? (applyWrites fs ws).files x = fsGet? fs.files x :=
      fsGet?_applyWrites_ne ws fs x (fun w hw => hxw w hw)
    cases s with
    | true => simpa using hws
    | false =>
      show fsGet? (fsSet (applyWrites fs ws).files dest "") x = _
      rw [fsGet?_fsSet_ne _ dest x "" (fun he => hxd he.symm)]
      exact hws
  | raises ws =>
    exact fsGet?_applyWrites_ne ws fs x (fun w hw => hxw w hw)

theorem worker_process_item_establishes (fname : String) (cols : List String)
    (p : Preprocessor)
    (hf : p.metadata_filename = some fname)
    (hcols : p.metadata_columns
      = some (((cols.erase "path").erase "success").erase "message"))
    (horder : p.column_order = some (["path", "success", "message"] ++ cols))
    (outcome : PreprocOutcome) (src dest : String) (fs : FS) (log : List (List PyVal))
    (fs2 : FS) (log2 : List (List PyVal))
    (h : worker_process_item p outcome src dest fs log = Except.ok (fs2, log2))
    (hcap : ∀ msg attrs ws, outcome = PreprocOutcome.ok true msg attrs ws →
      ∃ c, (dest, c) ∈ ws) :
    pathExists fs2 dest = true ∨
      ∃ row ∈ log2,
        row.get? 0 = some (PyVal.str (strDrop src (strLen p.src_dir + 1))) ∧
        row.get? 1 = some (PyVal.int 0) := by
  have hfs := worker_process_item_fs p outcome src dest fs log fs2 log2 h
  cases outcome with
  | ok s msg attrs ws =>
    left
    cases s with
    | true =>
      obtain ⟨c, hc⟩ := hcap msg attrs ws rfl
      rw [hfs]
      simpa using pathExists_writes_target ws fs (dest, c) hc
    | false =>
      rw [hfs]
      simpa using pathExists_writeFile_self (applyWrites fs ws) dest ""
  | raises ws =>
    right
    obtain ⟨row, hlog, h0, h1⟩ := worker_process_item_row fname cols p hf hcols horder
      (PreprocOutcome.raises ws) src dest fs log fs2 log2 h
    refine ⟨row, ?_, h0, by simpa only [workerSuccess] using h1⟩
    rw [hlog]
    exact List.mem_append_right _ (List.mem_singleton.mpr rfl)

/-- Invariant tying the dispatcher's cached destination directory to its
cached source directory (lines 112-124 recompute both together). -/
def cacheInv (p : Preprocessor) (st : RunState) : Prop :=
  ∀ dd, st.cur_src_dir = some dd →
    st.cur_dest_dir = osJoin p.dest_dir (strDrop dd (strLen p.src_dir + 1))

theorem enter_dir_cur_src (p : Preprocessor) (st : RunState) (dir : String) :
    (run_item_enter_dir p st dir).cur_src_dir = some dir := by
  unfold run_item_enter_dir
  split
  · rfl
  · rename_i hch
    exact not_not.mp hch

theorem enter_dir_cur_dest (p : Preprocessor) (st : RunState) (dir : String)
    (hinv : cacheInv p st) :
    (run_item_enter_dir p st dir).cur_dest_dir
      = osJoin p.dest_dir (strDrop dir (strLen p.src_dir + 1)) := by
  unfold run_item_enter_dir
  split
  · rfl
  · rename_i hch
    exact hinv dir (not_not.mp hch)

theorem enter_dir_cacheInv (p : Preprocessor) (st : RunState) (dir : String)
    (hinv : cacheInv p st) : cacheInv p (run_item_enter_dir p st dir) := by
  intro dd hdd
  rw [enter_dir_cur_src] at hdd
  cases Option.some.inj hdd
  exact enter_dir_cur_dest p st dir hinv

theorem enter_dir_files (p : Preprocessor) (st : RunState) (dir : String) :
    (run_item_enter_dir p st dir).fs.files = st.fs.files := by
  unfold run_item_enter_dir
  split
  · show (if _ then st.fs else mkdirs _ _).files = st.fs.files
    split
    · rfl
    · rfl
  · rfl

theorem enter_dir_mono (p : Preprocessor) (st : RunState) (dir x : String)
    (hx : pathExists st.fs x = true) :
    pathExists (run_item_enter_dir p st dir).fs x = true := by
  unfold run_item_enter_dir
  split
  · show pathExists (if _ then st.fs else mkdirs _ _) x = true
    split
    · exact hx
    · exact pathExists_mkdirs_mono st.fs _ x hx
  · exact hx

theorem enter_dir_log (p : Preprocessor) (st : RunState) (dir : String) :
    (run_item_enter_dir p st dir).log = st.log := by
  unfold run_item_enter_dir
  split <;> rfl

theorem enter_dir_enqueued (p : Preprocessor) (st : RunState) (dir : String) :
    (run_item_enter_dir p st dir).enqueued = st.enqueued := by
  unfold run_item_enter_dir
  split <;> rfl

theorem run_item_spec (p : Preprocessor) (fn : String → String → PreprocOutcome)
    (st : RunState) (src : String) (st' : RunState)
    (hinv : cacheInv p st)
    (h : run_item p fn st src = Except.ok st') :
    cacheInv p st' ∧
    ((st'.log = st.log ∧ st'.enqueued = st.enqueued ∧ st'.fs.files = st.fs.files ∧
       (∀ x, pathExists st.fs x = true → pathExists st'.fs x = true) ∧
       pathExists st'.fs (dest_path_of p src) = true)
     ∨
     (∃ fs1 : FS, fs1.files = st.fs.files ∧
       (∀ x, pathExists st.fs x = true → pathExists fs1 x = true) ∧
       pathExists fs1 (dest_path_of p src) = false ∧
       worker_process_item p (fn src (dest_path_of p src)) src (dest_path_of p src)
         fs1 st.log = Except.ok (st'.fs, st'.log) ∧
       st'.enqueued = st.enqueued ++ [(src, dest_path_of p src)])) := by
  have hdp : dest_path_of p src
      = osJoin (run_item_enter_dir p st (osSplit src).1).cur_dest_dir
        ((splitext (osSplit src).2).1 ++ p.output_extension) := by
    rw [enter_dir_cur_dest p st _ hinv]
    rfl
  rw [hdp]
  simp only [run_item] at h
  split at h
  case isTrue hex =>
    cases h
    exact ⟨enter_dir_cacheInv p st _ hinv,
      Or.inl ⟨enter_dir_log p st _, enter_dir_enqueued p st _, enter_dir_files p st _,
        fun x hx => enter_dir_mono p st _ x hx, hex⟩⟩
  case isFalse hex =>
    split at h
    case h_1 e heq => cases h
    case h_2 r heq =>
      cases h
      refine ⟨?_, Or.inr ⟨(run_item_enter_dir p st (osSplit src).1).fs,
        enter_dir_files p st _, fun x hx => enter_dir_mono p st _ x hx,
        Bool.not_eq_true _ ▸ hex, ?_, ?_⟩⟩
      · intro dd hdd
        rw [enter_dir_cur_src] at hdd
        cases Option.some.inj hdd
        exact enter_dir_cur_dest p st _ hinv
      · rw [← enter_dir_log p st (osSplit src).1]
        exact heq
      · rw [enter_dir_enqueued p st (osSplit src).1]

/-- When the mapped destination of `src` already exists, `run_item`
takes the skip branch: no enqueue, no worker invocation, only the
directory-entry step. -/
theorem run_item_skip (p : Preprocessor) (fn : String → String → PreprocOutcome)
    (st : RunState) (src : String) (hinv : cacheInv p st)
    (hex : pathExists st.fs (dest_path_of p src) = true) :
    run_item p fn st src = Except.ok (run_item_enter_dir p st (osSplit src).1) := by
  have hdp : osJoin (run_item_enter_dir p st (osSplit src).1).cur_dest_dir
      ((splitext (osSplit src).2).1 ++ p.output_extension) = dest_path_of p src := by
    rw [enter_dir_cur_dest p st _ hinv]
    rfl
  simp only [run_item]
  rw [hdp, if_pos (enter_dir_mono p st _ _ hex)]

theorem run_files_skips (p : Preprocessor) (fn : String → String → PreprocOutcome)
    (root : String) (files : List String) (st : RunState) (hinv : cacheInv p st)
    (hdest : ∀ f ∈ files, pathExists st.fs (dest_path_of p (osJoin root f)) = true) :
    ∃ st', run_files p fn root files st = Except.ok st' ∧ cacheInv p st' ∧
      st'.log = st.log ∧ st'.enqueued = st.enqueued ∧
      (∀ x, pathExists st.fs x = true → pathExists st'.fs x = true) := by
  induction files generalizing st with
  | nil => exact ⟨st, rfl, hinv, rfl, rfl, fun x hx => hx⟩
  | cons f rest ih =>
    have hskip := run_item_skip p fn st (osJoin root f) hinv
      (hdest f (List.mem_cons_self _ _))
    obtain ⟨st', hrun, hinv', hlog, henq, hmono⟩ :=
      ih (run_item_enter_dir p st (osSplit (osJoin root f)).1)
        (enter_dir_cacheInv p st _ hinv)
        (fun f' hf' => enter_dir_mono p st _ _ (hdest f' (List.mem_cons_of_mem _ hf')))
    refine ⟨st', ?_, hinv', ?_, ?_, ?_⟩
    · rw [run_files, hskip]
      exact hrun
    · rw [hlog, enter_dir_log]
    · rw [henq, enter_dir_enqueued]
    · intro x hx
      exact hmono x (enter_dir_mono p st _ x hx)

theorem run_walk_skips (p : Preprocessor) (fn : String → String → PreprocOutcome)
    (walkOut : List (String × List String)) (st : RunState) (hinv : cacheInv p st)
    (hroots : ∀ rf ∈ walkOut, strStartsWith rf.1 p.src_dir = true)
    (hdest : ∀ rf ∈ walkOut, ∀ f ∈ matchingFiles p rf.2,
      pathExists st.fs (dest_path_of p (osJoin rf.1 f)) = true) :
    ∃ st', run_walk p fn walkOut st = Except.ok st' ∧
      st'.log = st.log ∧ st'.enqueued = st.enqueued := by
  induction walkOut generalizing st with
  | nil => exact ⟨st, rfl, rfl, rfl⟩
  | cons rf rest ih =>
    obtain ⟨root, files⟩ := rf
    obtain ⟨st₁, hrun₁, hinv₁, hlog₁, henq₁, hmono₁⟩ :=
      run_files_skips p fn root (matchingFiles p files) st hinv
        (fun f hf => hdest (root, files) (List.mem_cons_self _ _) f hf)
    obtain ⟨st', hrun', hlog', henq'⟩ := ih st₁ hinv₁
      (fun rf' hrf' => hroots rf' (List.mem_cons_of_mem _ hrf'))
      (fun rf' hrf' f hf => hmono₁ _
        (hdest rf' (List.mem_cons_of_mem _ hrf') f hf))
    refine ⟨st', ?_, by rw [hlog', hlog₁], by rw [henq', henq₁]⟩
    rw [run_walk, if_pos (hroots (root, files) (List.mem_cons_self _ _)), hrun₁]
    exact hrun'

theorem run_files_coverage (fname : String) (cols : List String) (p : Preprocessor)
    (hf : p.metadata_filename = some fname)
    (hcols : p.metadata_columns
      = some (((cols.erase "path").erase "success").erase "message"))
    (horder : p.column_order = some (["path", "success", "message"] ++ cols))
    (fn : String → String → PreprocOutcome)
    (hcap : ∀ s' d' msg attrs ws, fn s' d' = PreprocOutcome.ok true msg attrs ws →
      ∃ c, (d', c) ∈ ws)
    (root : String) (files : List String) (st st' : RunState) (hinv : cacheInv p st)
    (h : run_files p fn root files st = Except.ok st') :
    cacheInv p st' ∧
    (∀ x, pathExists st.fs x = true → pathExists st'.fs x = true) ∧
    (∃ tail, st'.log = st.log ++ tail) ∧
    (∀ f ∈ files, pathExists st'.fs (dest_path_of p (osJoin root f)) = true ∨
      ∃ row ∈ st'.log,
        row.get? 0 = some (PyVal.str (strDrop (osJoin root f) (strLen p.src_dir + 1))) ∧
        row.get? 1 = some (PyVal.int 0)) := by
  induction files generalizing st with
  | nil =>
    cases h
    exact ⟨hinv, fun x hx => hx, ⟨[], by simp⟩,
      fun f hf' => absurd hf' (List.not_mem_nil f)⟩
  | cons f rest ih =>
    rw [run_files] at h
    split at h
    case h_1 e heq => cases h
    case h_2 st₁ heq =>
      obtain ⟨hinv₁, hcase⟩ := run_item_spec p fn st (osJoin root f) st₁ hinv heq
      obtain ⟨hinv', hmono', htail', hcover'⟩ := ih st₁ hinv₁ h
      have hstep : pathExists st₁.fs (dest_path_of p (osJoin root f)) = true ∨
          ∃ row ∈ st₁.log,
            row.get? 0
              = some (PyVal.str (strDrop (osJoin root f) (strLen p.src_dir + 1))) ∧
            row.get? 1 = some (PyVal.int 0) := by
        rcases hcase with ⟨_, _, _, _, hex⟩ | ⟨fs1, hfiles, hmono1, hnex, hw, henq⟩
        · exact Or.inl hex
        · exact worker_process_item_establishes fname cols p hf hcols horder
            (fn (osJoin root f) (dest_path_of p (osJoin root f))) (osJoin root f)
            (dest_path_of p (osJoin root f)) fs1 st.log st₁.fs st₁.log hw
            (fun msg attrs ws hofn => hcap _ _ msg attrs ws hofn)
      have hmono₁ : ∀ x, pathExists st.fs x = true → pathExists st₁.fs x = true := by
        intro x hx
        rcases hcase with ⟨_, _, _, hm, _⟩ | ⟨fs1, hfiles, hmono1, hnex, hw, henq⟩
        · exact hm x hx
        · exact (worker_process_item_mono p _ _ _ fs1 st.log st₁.fs st₁.log hw).1 x
            (hmono1 x hx)
      have htail₁ : ∃ tail, st₁.log = st.log ++ tail := by
        rcases hcase with ⟨hlog1, _⟩ | ⟨fs1, hfiles, hmono1, hnex, hw, henq⟩
        · exact ⟨[], by rw [hlog1, List.append_nil]⟩
        · exact (worker_process_item_mono p _ _ _ fs1 st.log st₁.fs st₁.log hw).2
      refine ⟨hinv', fun x hx => hmono' x (hmono₁ x hx), ?_, ?_⟩
      · obtain ⟨t2, ht2⟩ := htail'
        obtain ⟨t1, ht1⟩ := htail₁
        exact ⟨t1 ++ t2, by rw [ht2, ht1, List.append_assoc]⟩
      · intro f' hf'
        rcases List.mem_cons.mp hf' with rfl | hf'
        · rcases hstep with hex | ⟨row, hrow, h0, h1⟩
          · exact Or.inl (hmono' _ hex)
          · refine Or.inr ⟨row, ?_, h0, h1⟩
            obtain ⟨t2, ht2⟩ := htail'
            rw [ht2]
            exact List.mem_append_left _ hrow
        · exact hcover' f' hf'

theorem run_walk_coverage (fname : String) (cols : List String) (p : Preprocessor)
    (hf : p.metadata_filename = some fname)
    (hcols : p.metadata_columns
      = some (((cols.erase "path").erase "success").erase "message"))
    (horder : p.column_order = some (["path", "success", "message"] ++ cols))
    (fn : String → String → PreprocOutcome)
    (hcap : ∀ s' d' msg attrs ws, fn s' d' = PreprocOutcome.ok true msg attrs ws →
      ∃ c, (d', c) ∈ ws)
    (walkOut : List (String × List String)) (st st' : RunState) (hinv : cacheInv p st)
    (h : run_walk p fn walkOut st = Except.ok st') :
    (∀ x, pathExists st.fs x = true → pathExists st'.fs x = true) ∧
    (∃ tail, st'.log = st.log ++ tail) ∧
    (∀ rf ∈ walkOut, ∀ f ∈ matchingFiles p rf.2,
      pathExists st'.fs (dest_path_of p (osJoin rf.1 f)) = true ∨
      ∃ row ∈ st'.log,
        row.get? 0 = some (PyVal.str (strDrop (osJoin rf.1 f) (strLen p.src_dir + 1))) ∧
        row.get? 1 = some (PyVal.int 0)) := by
  induction walkOut generalizing st with
  | nil =>
    cases h
    exact ⟨fun x hx => hx, ⟨[], by simp⟩, fun rf hrf => absurd hrf (List.not_mem_nil rf)⟩
  | cons rf rest ih =>
    obtain ⟨root, files⟩ := rf
    rw [run_walk] at h
    split at h
    case isTrue hroot =>
      split at h
      case h_1 e heq => cases h
      case h_2 st₁ heq =>
        obtain ⟨hinv₁, hmono₁, htail₁, hcover₁⟩ := run_files_coverage fname cols p
          hf hcols horder fn hcap root (matchingFiles p files) st st₁ hinv heq
        obtain ⟨hmono', htail', hcover'⟩ := ih st₁ hinv₁ h
        refine ⟨fun x hx => hmono' x (hmono₁ x hx), ?_, ?_⟩
        · obtain ⟨t2, ht2⟩ := htail'
          obtain ⟨t1, ht1⟩ := htail₁
          exact ⟨t1 ++ t2, by rw [ht2, ht1, List.append_assoc]⟩
        · intro rf' hrf' f hfm
          rcases List.mem_cons.mp hrf' with rfl | hrf'
          · rcases hcover₁ f hfm with hex | ⟨row, hrow, h0, h1⟩
            · exact Or.inl (hmono' _ hex)
            · refine Or.inr ⟨row, ?_, h0, h1⟩
              obtain ⟨t2, ht2⟩ := htail'
              rw [ht2]
              exact List.mem_append_left _ hrow
          · exact hcover' rf' hrf' f hfm
    case isFalse hroot => cases h

theorem drop_append_cons (l : List Char) (c : Char) (t : List Char) :
    List.drop (l.length + 1) (l ++ c :: t) = t := by
  have h : l ++ c :: t = (l ++ [c]) ++ t := by simp
  have h2 : l.length + 1 = (l ++ [c]).length := by simp
  rw [h, h2, List.drop_left]

/-- Well-formedness of `os.walk` output: each root is the top directory
itself or lies strictly below it (`top/...`), roots do not end in a
separator, and file names are not absolute — all guaranteed by
`os.walk` for a normalized absolute top directory. -/
def walkWF (p : Preprocessor) (walkOut : List (String × List String)) : Prop :=
  ∀ rf ∈ walkOut,
    ((rf.1 = p.src_dir ∧ p.src_dir ≠ "")
      ∨ strStartsWith rf.1 (p.src_dir ++ "/") = true) ∧
    rf.1.data.getLast? ≠ some '/' ∧
    ∀ f ∈ rf.2, strStartsWith f "/" = false

/-- Every enumerated source path decomposes as the source root, a
separator, and its relative path (the `len(src_dir)+1` slice). -/
theorem osJoin_canonical (p : Preprocessor) (root f : String)
    (hroot : (root = p.src_dir ∧ p.src_dir ≠ "")
      ∨ strStartsWith root (p.src_dir ++ "/") = true)
    (hlast : root.data.getLast? ≠ some '/')
    (hf : strStartsWith f "/" = false) :
    (osJoin root f).data
      = p.src_dir.data ++ '/' :: (strDrop (osJoin root f) (strLen p.src_dir + 1)).data := by
  have hprefix : root = p.src_dir ∧ p.src_dir ≠ ""
      ∨ ∃ t, root.data = p.src_dir.data ++ '/' :: t := by
    rcases hroot with h | h
    · exact Or.inl h
    · right
      rw [strStartsWith, List.isPrefixOf_iff_prefix] at h
      obtain ⟨t, ht⟩ := h
      refine ⟨t, ?_⟩
      rw [← ht]
      have hsd : (p.src_dir ++ "/").data = p.src_dir.data ++ ['/'] := rfl
      rw [hsd, List.append_assoc]
      rfl
  have hne : root ≠ "" := by
    rcases hprefix with ⟨h, hsd⟩ | ⟨t, ht⟩
    · rw [h]; exact hsd
    · intro he
      rw [he] at ht
      exact absurd ht.symm (by simp)
  have hjoin : osJoin root f = root ++ "/" ++ f := by
    rw [osJoin, if_neg (by simp [hf]), if_neg (not_or.mpr ⟨hne, hlast⟩)]
  have hdata : (osJoin root f).data = root.data ++ '/' :: f.data := by
    rw [hjoin]
    have h1 : (root ++ "/" ++ f).data = (root.data ++ ['/']) ++ f.data := rfl
    rw [h1, List.append_assoc]
    rfl
  have hdrop : ∀ s : String, ∀ n : Nat, (strDrop s n).data = s.data.drop n :=
    fun s n => rfl
  rcases hprefix with ⟨h, _⟩ | ⟨t, ht⟩
  · rw [hdata, hdrop, hdata, h]
    have : strLen p.src_dir + 1 = p.src_dir.data.length + 1 := rfl
    rw [this, drop_append_cons]
  · rw [hdata, hdrop, hdata, ht]
    have h2 : (p.src_dir.data ++ '/' :: t) ++ '/' :: f.data
        = p.src_dir.data ++ '/' :: (t ++ '/' :: f.data) := by simp
    rw [h2]
    have : strLen p.src_dir + 1 = p.src_dir.data.length + 1 := rfl
    rw [this, drop_append_cons]

/-- Two canonical source paths with the same relative path are equal. -/
theorem rel_inj (p : Preprocessor) (src src0 : String)
    (h1 : src.data
      = p.src_dir.data ++ '/' :: (strDrop src (strLen p.src_dir + 1)).data)
    (h2 : src0.data
      = p.src_dir.data ++ '/' :: (strDrop src0 (strLen p.src_dir + 1)).data)
    (hrel : strDrop src (strLen p.src_dir + 1) = strDrop src0 (strLen p.src_dir + 1)) :
    src = src0 := by
  have hd : src.data = src0.data := by
    rw [h1, h2, hrel]
  cases src with
  | mk l1 =>
    cases src0 with
    | mk l2 => exact congrArg String.mk (by simpa using hd)

theorem run_files_avoid (fname : String) (cols : List String) (p : Preprocessor)
    (hf : p.metadata_filename = some fname)
    (hcols : p.metadata_columns
      = some (((cols.erase "path").erase "success").erase "message"))
    (horder : p.column_order = some (["path", "success", "message"] ++ cols))
    (fn : String → String → PreprocOutcome)
    (hwrites : ∀ s' d' : String, ∀ w ∈ outcomeWrites (fn s' d'), w.1 = d')
    (src0 : String)
    (hsrc0 : src0.data
      = p.src_dir.data ++ '/' :: (strDrop src0 (strLen p.src_dir + 1)).data)
    (root : String) (files : List String)
    (hcanon : ∀ f ∈ files, (osJoin root f).data
      = p.src_dir.data ++ '/' :: (strDrop (osJoin root f) (strLen p.src_dir + 1)).data)
    (st st' : RunState) (hinv : cacheInv p st)
    (h : run_files p fn root files st = Except.ok st')
    (hex : pathExists st.fs (dest_path_of p src0) = true) :
    cacheInv p st' ∧
    pathExists st'.fs (dest_path_of p src0) = true ∧
    fsGet? st'.fs.files (dest_path_of p src0)
      = fsGet? st.fs.files (dest_path_of p src0) ∧
    (∀ it ∈ st'.enqueued, it ∈ st.enqueued ∨ it.1 ≠ src0) ∧
    (∀ row ∈ st'.log, row ∈ st.log ∨
      row.get? 0 ≠ some (PyVal.str (strDrop src0 (strLen p.src_dir + 1)))) := by
  induction files generalizing st with
  | nil =>
    cases h
    exact ⟨hinv, hex, rfl, fun it hit => Or.inl hit, fun row hrow => Or.inl hrow⟩
  | cons f rest ih =>
    rw [run_files] at h
    split at h
    case h_1 e heq => cases h
    case h_2 st₁ heq =>
      obtain ⟨hinv₁, hcase⟩ := run_item_spec p fn st (osJoin root f) st₁ hinv heq
      have step : pathExists st₁.fs (dest_path_of p src0) = true ∧
          fsGet? st₁.fs.files (dest_path_of p src0)
            = fsGet? st.fs.files (dest_path_of p src0) ∧
          (∀ it ∈ st₁.enqueued, it ∈ st.enqueued ∨ it.1 ≠ src0) ∧
          (∀ row ∈ st₁.log, row ∈ st.log ∨
            row.get? 0 ≠ some (PyVal.str (strDrop src0 (strLen p.src_dir + 1)))) := by
        rcases hcase with ⟨hlog1, henq1, hfiles1, hm1, _⟩ |
          ⟨fs1, hfiles1, hm1, hnex, hw, henq1⟩
        · refine ⟨hm1 _ hex, by rw [hfiles1], ?_, ?_⟩
          · intro it hit
            rw [henq1] at hit
            exact Or.inl hit
          · intro row hrow
            rw [hlog1] at hrow
            exact Or.inl hrow
        · have hex1 : pathExists fs1 (dest_path_of p src0) = true := hm1 _ hex
          have hdne : dest_path_of p (osJoin root f) ≠ dest_path_of p src0 := by
            intro he
            rw [he] at hnex
            rw [hnex] at hex1
            cases hex1
          have hsrcne : osJoin root f ≠ src0 := by
            intro he
            exact hdne (by rw [he])
          have hwm := worker_process_item_mono p _ _ _ fs1 st.log st₁.fs st₁.log hw
          refine ⟨hwm.1 _ hex1, ?_, ?_, ?_⟩
          · rw [worker_process_item_files_ne p _ _ _ fs1 st.log st₁.fs st₁.log hw
              (dest_path_of p src0) (fun he => hdne he.symm)
              (fun w hwmem => ?_), hfiles1]
            rw [hwrites _ _ w hwmem]
            exact fun he => hdne he
          · intro it hit
            rw [henq1] at hit
            rcases List.mem_append.mp hit with hit | hit
            · exact Or.inl hit
            · right
              rw [List.mem_singleton.mp hit]
              exact hsrcne
          · intro row hrow
            obtain ⟨row', hlog', h0', h1'⟩ := worker_process_item_row fname cols p
              hf hcols horder _ _ _ fs1 st.log st₁.fs st₁.log hw
            rw [hlog'] at hrow
            rcases List.mem_append.mp hrow with hrow | hrow
            · exact Or.inl hrow
            · right
              rw [List.mem_singleton.mp hrow, h0']
              intro he
              have hreleq : strDrop (osJoin root f) (strLen p.src_dir + 1)
                  = strDrop src0 (strLen p.src_dir + 1) :=
                PyVal.str.inj (Option.some.inj he)
              exact hsrcne (rel_inj p (osJoin root f) src0
                (hcanon f (List.mem_cons_self _ _)) hsrc0 hreleq)
      obtain ⟨hex₁, hget₁, henq₁, hlog₁⟩ := step
      obtain ⟨hinv', hex', hget', henq', hlog'⟩ := ih
        (fun f' hf' => hcanon f' (List.mem_cons_of_mem _ hf')) st₁ hinv₁ h hex₁
      refine ⟨hinv', hex', by rw [hget', hget₁], ?_, ?_⟩
      · intro it hit
        rcases henq' it hit with hit' | hne
        · exact henq₁ it hit'
        · exact Or.inr hne
      · intro row hrow
        rcases hlog' row hrow with hrow' | hne
        · exact hlog₁ row hrow'
        · exact Or.inr hne

theorem run_walk_avoid (fname : String) (cols : List String) (p : Preprocessor)
    (hf : p.metadata_filename = some fname)
    (hcols : p.metadata_columns
      = some (((cols.erase "path").erase "success").erase "message"))
    (horder : p.column_order = some (["path", "success", "message"] ++ cols))
    (fn : String → String → PreprocOutcome)
    (hwrites : ∀ s' d' : String, ∀ w ∈ outcomeWrites (fn s' d'), w.1 = d')
    (src0 : String)
    (hsrc0 : src0.data
      = p.src_dir.data ++ '/' :: (strDrop src0 (strLen p.src_dir + 1)).data)
    (walkOut : List (String × List String)) (hwf : walkWF p walkOut)
    (st st' : RunState) (hinv : cacheInv p st)
    (h : run_walk p fn walkOut st = Except.ok st')
    (hex : pathExists st.fs (dest_path_of p src0) = true) :
    pathExists st'.fs (dest_path_of p src0) = true ∧
    fsGet? st'.fs.files (dest_path_of p src0)
      = fsGet? st.fs.files (dest_path_of p src0) ∧
    (∀ it ∈ st'.enqueued, it ∈ st.enqueued ∨ it.1 ≠ src0) ∧
    (∀ row ∈ st'.log, row ∈ st.log ∨
      row.get? 0 ≠ some (PyVal.str (strDrop src0 (strLen p.src_dir + 1)))) := by
  induction walkOut generalizing st with
  | nil =>
    cases h
    exact ⟨hex, rfl, fun it hit => Or.inl hit, fun row hrow => Or.inl hrow⟩
  | cons rf rest ih =>
    obtain ⟨root, files⟩ := rf
    rw [run_walk] at h
    split at h
    case isTrue hroot =>
      split at h
      case h_1 e heq => cases h
      case h_2 st₁ heq =>
        obtain ⟨hwf1, hwf2, hwf3⟩ := hwf (root, files) (List.mem_cons_self _ _)
        have hcanon : ∀ f ∈ matchingFiles p files, (osJoin root f).data
            = p.src_dir.data
              ++ '/' :: (strDrop (osJoin root f) (strLen p.src_dir + 1)).data := by
          intro f hfm
          exact osJoin_canonical p root f hwf1 hwf2
            (hwf3 f (List.mem_filter.mp hfm).1)
        obtain ⟨hinv₁, hex₁, hget₁, henq₁, hlog₁⟩ := run_files_avoid fname cols p
          hf hcols horder fn hwrites src0 hsrc0 root (matchingFiles p files)
          hcanon st st₁ hinv heq hex
        obtain ⟨hex', hget', henq', hlog'⟩ := ih
          (fun rf' hrf' => hwf rf' (List.mem_cons_of_mem _ hrf')) st₁ hinv₁ h hex₁
        refine ⟨hex', by rw [hget', hget₁], ?_, ?_⟩
        · intro it hit
          rcases henq' it hit with hit' | hne
          · exact henq₁ it hit'
          · exact Or.inr hne
        · intro row hrow
          rcases hlog' row hrow with hrow' | hne
          · exact hlog₁ row hrow'
          · exact Or.inr hne
    case isFalse hroot => cases h

theorem itemCount_append (q r : List Msg) :
    itemCount (q ++ r) = itemCount q + itemCount r := by
  induction q with
  | nil => simp [itemCount]
  | cons m q ih =>
    have hca : (m :: q) ++ r = m :: (q ++ r) := rfl
    rw [hca]
    cases m
    · show itemCount (q ++ r) + 1 = itemCount q + 1 + itemCount r
      rw [ih]
      omega
    · show itemCount (q ++ r) = itemCount q + itemCount r
      exact ih

theorem itemCount_replicate_marker (n : Nat) :
    itemCount (List.replicate n Msg.marker) = 0 := by
  induction n with
  | zero => rfl
  | succ n ih => simpa [List.replicate_succ, itemCount] using ih

theorem itemCount_fillQueue (cap : Nat) (q : List Msg) :
    itemCount (fillQueue cap q) = itemCount q := by
  rw [fillQueue, itemCount_append, itemCount_replicate_marker]
  omega

theorem fillQueue_length (cap : Nat) (q : List Msg) :
    (fillQueue cap q).length = q.length + (cap - q.length) := by
  simp [fillQueue]

theorem fillQueue_ne_nil (cap : Nat) (q : List Msg) (hcap : 1 ≤ cap) :
    fillQueue cap q ≠ [] := by
  intro he
  have h := fillQueue_length cap q
  rw [he] at h
  simp only [List.length_nil] at h
  omega

theorem workerPhase_measure (ws : List Nat) (q : List Msg) (ws' : List Nat)
    (q' : List Msg) (h : workerPhase ws q = (ws', q')) :
    ws'.length + itemCount q' + min ws.length q.length
      = ws.length + itemCount q := by
  induction ws generalizing q ws' q' with
  | nil =>
    injection h with h1 h2
    subst h1
    subst h2
    simp
  | cons w ws ih =>
    cases q with
    | nil =>
      injection h with h1 h2
      subst h1
      subst h2
      simp [itemCount]
    | cons m q =>
      rcases hwp : workerPhase ws q with ⟨rest, qr⟩
      have ih' := ih q rest qr hwp
      cases m
      · rw [workerPhase, hwp] at h
        injection h with h1 h2
        subst h1
        subst h2
        show (w :: rest).length + itemCount qr + min (w :: ws).length (Msg.item :: q).length
          = (w :: ws).length + (itemCount q + 1)
        simp only [List.length_cons, Nat.succ_min_succ]
        omega
      · rw [workerPhase, hwp] at h
        injection h with h1 h2
        subst h1
        subst h2
        show rest.length + itemCount qr + min (w :: ws).length (Msg.marker :: q).length
          = (w :: ws).length + itemCount q
        simp only [List.length_cons, Nat.succ_min_succ]
        omega

theorem pollScanAux_length_le (alive : List Nat) :
    ∀ (n : Nat) (l : List Nat) (i : Nat), l.length - i ≤ n →
      (pollScanAux alive l i).length ≤ l.length := by
  intro n
  induction n with
  | zero =>
    intro l i hn
    rw [pollScanAux]
    split
    · rename_i h
      exact absurd hn (by omega)
    · exact le_rfl
  | succ n ih =>
    intro l i hn
    rw [pollScanAux]
    split
    · rename_i h
      split
      · exact ih l (i + 1) (by omega)
      · have hx : l.get ⟨i, h⟩ ∈ l := l.get_mem i h
        have hlen := List.length_erase_of_mem hx
        have hrec := ih (l.erase (l.get ⟨i, h⟩)) (i + 1) (by omega)
        omega
    · exact le_rfl

theorem pollScan_le (alive l : List Nat) :
    (pollScanAux alive l 0).length ≤ l.length :=
  pollScanAux_length_le alive l.length l 0 (by omega)

theorem pollScanAux_nil (alive : List Nat) (i : Nat) :
    pollScanAux alive [] i = [] := by
  rw [pollScanAux]
  split
  · rename_i h
    exact absurd h (by simp)
  · rfl

theorem pollScanAux_nil_alive_lt (l : List Nat) (hl : l ≠ []) :
    (pollScanAux [] l 0).length < l.length := by
  rw [pollScanAux]
  have h0 : 0 < l.length := List.length_pos.mpr hl
  rw [dif_pos h0, if_neg (by simp)]
  have hx : l.get ⟨0, h0⟩ ∈ l := l.get_mem 0 h0
  have hlen := List.length_erase_of_mem hx
  have hrec := pollScanAux_length_le [] (l.erase (l.get ⟨0, h0⟩)).length
    (l.erase (l.get ⟨0, h0⟩)) (0 + 1) (by omega)
  omega

theorem drainRound_measure_lt (cap : Nat) (s : DrainState) (hcap : 1 ≤ cap)
    (halive : s.alive ≠ []) :
    drainMeasure (drainRound cap s) < drainMeasure s := by
  rcases hwp : workerPhase s.alive (fillQueue cap s.queue) with ⟨alive', q'⟩
  have hm := workerPhase_measure s.alive (fillQueue cap s.queue) alive' q' hwp
  have hfni := itemCount_fillQueue cap s.queue
  have hfne := fillQueue_ne_nil cap s.queue hcap
  have h1 : 0 < s.alive.length := List.length_pos.mpr halive
  have h2 : 0 < (fillQueue cap s.queue).length := List.length_pos.mpr hfne
  simp only [drainRound, hwp, drainMeasure]
  simp only [drainMeasure] at hm ⊢
  omega

theorem drainRound_alive_nil (cap : Nat) (s : DrainState) (h : s.alive = []) :
    (drainRound cap s).alive = [] := by
  simp only [drainRound, h, workerPhase]

theorem drainRun_alive_stays_nil (cap : Nat) :
    ∀ (n : Nat) (s : DrainState), s.alive = [] → (drainRun cap n s).alive = [] := by
  intro n
  induction n with
  | zero => intro s h; exact h
  | succ n ih =>
    intro s h
    exact ih (drainRound cap s) (drainRound_alive_nil cap s h)

theorem drainRun_alive_nil_of_measure (cap : Nat) (hcap : 1 ≤ cap) :
    ∀ (n : Nat) (s : DrainState), drainMeasure s ≤ n →
      (drainRun cap n s).alive = [] := by
  intro n
  induction n with
  | zero =>
    intro s hs
    have h0 : s.alive.length = 0 := by
      simp only [drainMeasure] at hs
      omega
    exact List.length_eq_zero.mp h0
  | succ n ih =>
    intro s hs
    by_cases halive : s.alive = []
    · exact drainRun_alive_stays_nil cap n (drainRound cap s)
        (drainRound_alive_nil cap s halive)
    · have hlt := drainRound_measure_lt cap s hcap halive
      exact ih (drainRound cap s) (by omega)

theorem drainRound_pending_le (cap : Nat) (s : DrainState) :
    (drainRound cap s).pending.length ≤ s.pending.length := by
  simp only [drainRound]
  exact pollScan_le _ s.pending

theorem drainRun_pending_le (cap : Nat) :
    ∀ (n : Nat) (s : DrainState),
      (drainRun cap n s).pending.length ≤ s.pending.length := by
  intro n
  induction n with
  | zero => intro s; exact le_rfl
  | succ n ih =>
    intro s
    exact le_trans (ih (drainRound cap s)) (drainRound_pending_le cap s)

theorem drainRun_pending_nil (cap : Nat) :
    ∀ (m : Nat) (s : DrainState), s.alive = [] → s.pending.length ≤ m →
      (drainRun cap m s).pending = [] ∧ (drainRun cap m s).alive = [] := by
  intro m
  induction m with
  | zero =>
    intro s ha hp
    have hpn : s.pending = [] := List.length_eq_zero.mp (by omega)
    exact ⟨hpn, ha⟩
  | succ m ih =>
    intro s ha hp
    have h1 : (drainRound cap s).alive = [] := drainRound_alive_nil cap s ha
    by_cases hpn : s.pending = []
    · have h2 : (drainRound cap s).pending = [] := by
        simp only [drainRound, hpn]
        exact pollScanAux_nil _ 0
      exact ih (drainRound cap s) h1 (by rw [h2]; simp)
    · have hshrink : (drainRound cap s).pending.length < s.pending.length := by
        simp only [drainRound, ha, workerPhase]
        exact pollScanAux_nil_alive_lt s.pending hpn
      exact ih (drainRound cap s) h1 (by omega)

theorem drainRun_add (cap a b : Nat) (s : DrainState) :
    drainRun cap (a + b) s = drainRun cap b (drainRun cap a s) := by
  induction a generalizing s with
  | zero => simp [drainRun]
  | succ a ih =>
    have h : a + 1 + b = (a + b) + 1 := by omega
    rw [h]
    show drainRun cap (a + b) (drainRound cap s) = _
    exact ih (drainRound cap s)

/-! ### Claim theorems -/

/-- Claim C1 (code bug witness): at the configuration
`metadata_filename="meta.csv"`, `metadata_columns=["width","path"]`, the
constructor's configured column order is
`["path","success","message","width","path"]`: the reserved name `path`
occurring in the user list is not removed from the configured order
(source line 65 appends the original argument, not the stripped copy,
which is stored as `self.metadata_columns = ["width"]`), so a column
name appears twice — contrary to the claim's statement that reserved
names are stripped and no column name repeats. -/
theorem c1_column_order_keeps_reserved_names :
    (mkPreprocessor "/" "/data/src" "/data/dst" "jpg" Option.none (some "meta.csv")
        (some ["width", "path"]) 4).map
      (fun p => (p.column_order, p.metadata_columns))
    = some (some ["path", "success", "message", "width", "path"], some ["width"]) := by
  rfl

/-- Claim C2 counterexample: a work item whose capability invocation
raises.  The worker swallows the fault and logs a `success=0` row with
empty message and null attribute columns, but the destination filesystem
is returned unchanged — no placeholder (empty) file is created at
`/d/a.png`, because the placeholder write at source line 191 sits inside
the `try` block after the capability call and is skipped when the call
raises.  This falsifies the claim's statement that a placeholder file is
written at the item's destination path on an exception. -/
theorem c2_counterexample_no_placeholder_on_exception :
    (mkPreprocessor "/" "/s" "/d" "jpg" Option.none (some "m.csv") (some ["width"]) 4).map
      (fun p => worker_process_item p (PreprocOutcome.raises []) "/s/a.jpg" "/d/a.png"
        ⟨[], []⟩ [])
    = some (Except.ok (⟨[], []⟩,
        [[PyVal.str "a.jpg", PyVal.int 0, PyVal.str "", PyVal.none]]))
    ∧ pathExists ⟨[], []⟩ "/d/a.png" = false := by
  exact ⟨rfl, rfl⟩

/-- Claim C3 counterexample: configuration with no metadata log
(`metadata_filename=None`; `metadata_columns=[]` so the worker does not
crash), a single matching file `/src/a.jpg`, and a capability that
raises.  The run completes (`Except.ok`), yet no file exists at the
mapped destination `/dst/a.jpg` (the final filesystem holds no files,
only the created directory), no placeholder was written, and the log is
empty — all three disjuncts of the claim fail for this file. -/
theorem c3_counterexample_exception_without_log :
    (mkPreprocessor "/" "/src" "/dst" "jpg" Option.none Option.none (some []) 4).map
      (fun p => run p (fun _ _ => PreprocOutcome.raises []) [("/src", ["a.jpg"])] ⟨[], []⟩)
    = some (Except.ok ⟨⟨[], ["/dst/"]⟩, [], some "/src", "/dst/",
        [("/src/a.jpg", "/dst/a.jpg")], 1⟩)
    ∧ pathExists ⟨[], ["/dst/"]⟩ "/dst/a.jpg" = false := by
  exact ⟨rfl, rfl⟩

/-- Claim C8 counterexample: the user configures input extension `"JPG"`
(stored as `".JPG"`), and the tree holds a file `a.jpg` whose extension
`.jpg` equals `.JPG` case-insensitively.  The enumerator yields nothing:
source line 238 lowercases only the file's extension and compares it
with the stored extension as given, so nothing can match an uppercase
configured extension.  This falsifies the claim's statement that
extension matching is case-insensitive for every configuration (and that
a file differing only in case is yielded). -/
theorem c8_counterexample_uppercase_config_extension :
    (mkPreprocessor "/" "/src" "/dst" "JPG" Option.none Option.none Option.none 4).map
      (fun p => (enumerate_files p [("/src", ["a.jpg"])], p.input_extension))
    = some (Except.ok [], ".JPG")
    ∧ strLower ".jpg" = strLower ".JPG" := by
  exact ⟨rfl, rfl⟩

/-- Claim C10 counterexample: a run without a configured metadata log
(`metadata_filename=None`) but with a non-`None` column list
(`metadata_columns=[]`, accepted by the constructor) processes an item
without any error: the padding loop iterates the empty list and
`write_metadata` is a no-op.  This falsifies the claim's final clause
that no run without a configured metadata log can process any item. -/
theorem c10_counterexample_no_log_still_processes :
    (mkPreprocessor "/" "/s" "/d" "jpg" Option.none Option.none (some []) 4).map
      (fun p => worker_process_item p (PreprocOutcome.ok true "okmsg" [] [("/d/a.jpg", "out")])
        "/s/a.jpg" "/d/a.jpg" ⟨[], []⟩ [])
    = some (Except.ok (⟨[("/d/a.jpg", "out")], []⟩, [])) := by
  rfl

/-- The row-building part of the worker body, specified for a
preprocessor whose stored columns are the stripped copy of `cols`: the
build succeeds, its key set is exactly `path`/`success`/`message` plus
`cols`, the three fixed columns hold the relative path, the 1/0 success
flag and the message, and every non-reserved configured column absent
from the returned attributes holds `None`. -/
theorem worker_build_metadata_spec
    (cols : List String) (p : Preprocessor)
    (hcols : p.metadata_columns
      = some (((cols.erase "path").erase "success").erase "message"))
    (success : Bool) (message : String) (attrs : Dict)
    (hattrs : ∀ k, k ∈ dkeys attrs → k ∈ cols)
    (src_path : String) :
    ∃ m, worker_build_metadata p success message attrs src_path = Except.ok m ∧
      (∀ x, x ∈ dkeys m ↔ x ∈ ["path", "success", "message"] ++ cols) ∧
      dget? m "path" = some (PyVal.str (strDrop src_path (strLen p.src_dir + 1))) ∧
      dget? m "success" = some (PyVal.int (if success then 1 else 0)) ∧
      dget? m "message" = some (PyVal.str message) ∧
      (∀ c, c ∈ cols → c ≠ "path" → c ≠ "success" → c ≠ "message" →
        dcontains attrs c = false → dget? m c = some PyVal.none) := by
  refine ⟨dset (dset (dset
      (padColumns (((cols.erase "path").erase "success").erase "message") attrs)
      "path" (PyVal.str (strDrop src_path (strLen p.src_dir + 1))))
      "success" (PyVal.int (if success then 1 else 0)))
      "message" (PyVal.str message), ?_, ?_, ?_, ?_, ?_, ?_⟩
  · simp only [worker_build_metadata, hcols]
  · intro x
    by_cases h3 : x = "message"
    · subst h3
      rw [mem_dkeys_iff_isSome, dget?_dset_self]
      simp
    · by_cases h2 : x = "success"
      · subst h2
        rw [mem_dkeys_iff_isSome,
          dget?_dset_ne _ "message" "success" _ (by decide), dget?_dset_self]
        simp
      · by_cases h1 : x = "path"
        · subst h1
          rw [mem_dkeys_iff_isSome,
            dget?_dset_ne _ "message" "path" _ (by decide),
            dget?_dset_ne _ "success" "path" _ (by decide), dget?_dset_self]
          simp
        · rw [mem_dkeys_iff_isSome,
            dget?_dset_ne _ "message" x _ (fun he => h3 he.symm),
            dget?_dset_ne _ "success" x _ (fun he => h2 he.symm),
            dget?_dset_ne _ "path" x _ (fun he => h1 he.symm),
            isSome_padColumns]
          constructor
          · rintro (hs | hs)
            · have := hattrs x ((mem_dkeys_iff_isSome attrs x).mpr hs)
              simp [this]
            · have := stripped_subset cols hs
              simp [this]
          · intro hx
            rcases List.mem_append.mp hx with hx | hx
            · simp only [List.mem_cons, List.not_mem_nil, or_false] at hx
              rcases hx with hx | hx | hx
              · exact absurd hx h1
              · exact absurd hx h2
              · exact absurd hx h3
            · exact Or.inr ((mem_stripped_iff cols x h1 h2 h3).mpr hx)
  · rw [dget?_dset_ne _ "message" "path" _ (by decide),
      dget?_dset_ne _ "success" "path" _ (by decide), dget?_dset_self]
  · rw [dget?_dset_ne _ "message" "success" _ (by decide), dget?_dset_self]
  · rw [dget?_dset_self]
  · intro c hc h1 h2 h3 habs
    rw [dget?_dset_ne _ "message" c _ (fun he => h3 he.symm),
      dget?_dset_ne _ "success" c _ (fun he => h2 he.symm),
      dget?_dset_ne _ "path" c _ (fun he => h1 he.symm)]
    have hnone : dget? attrs c = Option.none := by
      cases h : dget? attrs c with
      | some v => rw [dcontains, h] at habs; cases habs
      | none => rfl
    exact dget?_padColumns_of_none_mem _ attrs c hnone
      ((mem_stripped_iff cols c h1 h2 h3).mpr hc)

/-- Claim C5: in the synchronous round model of the shutdown protocol
(each round the dispatcher saturates the bounded queue with termination
markers, every live worker then receives one message — consuming a
leftover item keeps it alive, consuming a marker makes it exit — and the
dispatcher performs one poll scan of its pending list, joining and
removing workers it observes dead, with Python's skip-after-remove
iteration), for any queue capacity ≥ 1 (the source uses 10), any number
of live workers, any leftover queue contents and any pending list: after
at most `live workers + leftover items + pending entries` rounds, every
worker has received a marker and exited, and every exited worker has
been joined and removed, so the run completes in a bounded, finite
number of rounds. -/
theorem c5_drain_protocol_terminates (cap : Nat) (s : DrainState) (hcap : 1 ≤ cap) :
    (drainRun cap (drainMeasure s + s.pending.length) s).alive = [] ∧
    (drainRun cap (drainMeasure s + s.pending.length) s).pending = [] := by
  rw [drainRun_add cap (drainMeasure s) s.pending.length s]
  have ha1 : (drainRun cap (drainMeasure s) s).alive = [] :=
    drainRun_alive_nil_of_measure cap hcap (drainMeasure s) s le_rfl
  have hp1 : (drainRun cap (drainMeasure s) s).pending.length ≤ s.pending.length :=
    drainRun_pending_le cap (drainMeasure s) s
  obtain ⟨h2, h3⟩ := drainRun_pending_nil cap s.pending.length
    (drainRun cap (drainMeasure s) s) ha1 hp1
  exact ⟨h3, h2⟩

/-- Claim C5 witness: four workers, three leftover items, capacity 10 —
after 11 rounds all workers have exited and been joined. -/
theorem c5_witness :
    1 ≤ 10 ∧
    (drainRun 10 (drainMeasure ⟨[Msg.item, Msg.item, Msg.item], [1, 2, 3, 4], [1, 2, 3, 4]⟩
        + ([1, 2, 3, 4] : List Nat).length)
      ⟨[Msg.item, Msg.item, Msg.item], [1, 2, 3, 4], [1, 2, 3, 4]⟩).alive = [] ∧
    (drainRun 10 (drainMeasure ⟨[Msg.item, Msg.item, Msg.item], [1, 2, 3, 4], [1, 2, 3, 4]⟩
        + ([1, 2, 3, 4] : List Nat).length)
      ⟨[Msg.item, Msg.item, Msg.item], [1, 2, 3, 4], [1, 2, 3, 4]⟩).pending = [] := by
  refine ⟨by decide, ?_, ?_⟩
  · exact (c5_drain_protocol_terminates 10
      ⟨[Msg.item, Msg.item, Msg.item], [1, 2, 3, 4], [1, 2, 3, 4]⟩ (by decide)).1
  · exact (c5_drain_protocol_terminates 10
      ⟨[Msg.item, Msg.item, Msg.item], [1, 2, 3, 4], [1, 2, 3, 4]⟩ (by decide)).2

/-- Claim C6: for every processed work item, whatever the transformation
outcome (`success` flag, message and returned attributes — for an
exception these are `False`, `""` and `{}`), the worker builds a
metadata row whose key set equals exactly the configured column set
(`path`, `success`, `message` plus the user column list), in which every
configured attribute column absent from the returned attributes holds
`None`, `path` holds the source path relative to the source root
(`src_path[len(src_dir)+1:]`), `success` holds 1/0 and `message` the
outcome message.  The hypothesis `hattrs` is the `ProcessingOutcome`
well-formedness from the data model (returned attributes use configured
attribute names; a row violating it would fail the append assertion). -/
theorem c6_metadata_row_well_formed
    (cwd s d ext : String) (oext : Option String) (fname : String)
    (cols : List String) (np : Nat) (p : Preprocessor)
    (hp : mkPreprocessor cwd s d ext oext (some fname) (some cols) np = some p)
    (success : Bool) (message : String) (attrs : Dict)
    (hattrs : ∀ k, k ∈ dkeys attrs → k ∈ cols)
    (src_path : String) :
    ∃ m, worker_build_metadata p success message attrs src_path = Except.ok m ∧
      (∀ x, x ∈ dkeys m ↔ x ∈ ["path", "success", "message"] ++ cols) ∧
      dget? m "path" = some (PyVal.str (strDrop src_path (strLen p.src_dir + 1))) ∧
      dget? m "success" = some (PyVal.int (if success then 1 else 0)) ∧
      dget? m "message" = some (PyVal.str message) ∧
      (∀ c, c ∈ cols → c ≠ "path" → c ≠ "success" → c ≠ "message" →
        dcontains attrs c = false → dget? m c = some PyVal.none) :=
  worker_build_metadata_spec cols p
    (mkPreprocessor_metadata_fields cwd s d ext oext fname cols np p hp).2.1
    success message attrs hattrs src_path

/-- Claim C6 witness: the row built for a concrete configured
preprocessor, a successful outcome returning only the `width` attribute
out of the configured `width`/`height` columns. -/
theorem c6_witness :
    (mkPreprocessor "/" "/t/src" "/t/dst" "jpg" Option.none (some "m.csv")
        (some ["width", "height"]) 4
      = some ⟨"/t/src", "/t/dst", ".jpg", ".jpg", some "m.csv", some ["width", "height"],
          some ["path", "success", "message", "width", "height"], some "/t/dst/m.csv", 4⟩) ∧
    (∀ k, k ∈ dkeys [("width", PyVal.int 10)] → k ∈ ["width", "height"]) ∧
    (∃ m, worker_build_metadata
        ⟨"/t/src", "/t/dst", ".jpg", ".jpg", some "m.csv", some ["width", "height"],
          some ["path", "success", "message", "width", "height"], some "/t/dst/m.csv", 4⟩
        true "" [("width", PyVal.int 10)] "/t/src/a/1.jpg" = Except.ok m ∧
      (∀ x, x ∈ dkeys m ↔ x ∈ ["path", "success", "message"] ++ ["width", "height"]) ∧
      dget? m "path" = some (PyVal.str (strDrop "/t/src/a/1.jpg" (strLen "/t/src" + 1))) ∧
      dget? m "success" = some (PyVal.int (if true then 1 else 0)) ∧
      dget? m "message" = some (PyVal.str "") ∧
      (∀ c, c ∈ ["width", "height"] → c ≠ "path" → c ≠ "success" → c ≠ "message" →
        dcontains [("width", PyVal.int 10)] c = false → dget? m c = some PyVal.none)) := by
  refine ⟨by rfl, by decide, ?_⟩
  exact c6_metadata_row_well_formed "/" "/t/src" "/t/dst" "jpg" Option.none "m.csv"
    ["width", "height"] 4 _ (by rfl) true "" [("width", PyVal.int 10)] (by decide)
    "/t/src/a/1.jpg"

/-- Claim C8 (amended): for every preprocessor, walk output and
successful enumeration, the enumerator yields exactly those file paths
`osJoin root f` whose extension **lowercased** equals the stored input
extension (so matching is case-insensitive precisely when the configured
extension is lowercase, as it is whenever the user passes a lowercase
extension; an uppercase configured extension matches nothing, see the
counterexample); every yielded path is prefixed by the source root (the
walk roots are checked by the source's assertion, and file names do not
begin with a separator); non-matching files and all directories are
silently skipped (they appear in no yielded path). -/
theorem c8_enumerator_exact (p : Preprocessor) (walkOut : List (String × List String))
    (ys : List String) (h : enumerate_files p walkOut = Except.ok ys)
    (hwf : ∀ rf ∈ walkOut, ∀ f ∈ rf.2, strStartsWith f "/" = false) :
    (∀ y, y ∈ ys ↔ ∃ rf ∈ walkOut, ∃ f ∈ rf.2,
      strLower (splitext f).2 = p.input_extension ∧ y = osJoin rf.1 f) ∧
    (∀ y ∈ ys, strStartsWith y p.src_dir = true) := by
  induction walkOut generalizing ys with
  | nil =>
    cases h
    constructor
    · intro y
      simp
    · intro y hy
      cases hy
  | cons rf rest ih =>
    obtain ⟨root, files⟩ := rf
    rw [enumerate_files] at h
    split at h
    case isTrue hroot =>
      cases hrest : enumerate_files p rest with
      | error e => rw [hrest] at h; cases h
      | ok ys' =>
        rw [hrest] at h
        cases h
        obtain ⟨ih₁, ih₂⟩ := ih ys' hrest
          (fun rf' hrf' => hwf rf' (List.mem_cons_of_mem _ hrf'))
        constructor
        · intro y
          rw [List.mem_append]
          constructor
          · rintro (hy | hy)
            · obtain ⟨f, hf, rfl⟩ := List.mem_map.mp hy
              obtain ⟨hfmem, hfext⟩ := List.mem_filter.mp hf
              exact ⟨(root, files), List.mem_cons_self _ _, f, hfmem,
                by simpa using hfext, rfl⟩
            · obtain ⟨rf', hrf', f, hfmem, hfext, rfl⟩ := ih₁ _ |>.mp hy
              exact ⟨rf', List.mem_cons_of_mem _ hrf', f, hfmem, hfext, rfl⟩
          · rintro ⟨rf', hrf', f, hfmem, hfext, rfl⟩
            rcases List.mem_cons.mp hrf' with hrf' | hrf'
            · subst hrf'
              refine Or.inl (List.mem_map.mpr ⟨f, List.mem_filter.mpr ⟨hfmem, ?_⟩, rfl⟩)
              simpa using hfext
            · exact Or.inr ((ih₁ _).mpr ⟨rf', hrf', f, hfmem, hfext, rfl⟩)
        · intro y hy
          rcases List.mem_append.mp hy with hy | hy
          · obtain ⟨f, hf, rfl⟩ := List.mem_map.mp hy
            have hnabs := hwf (root, files) (List.mem_cons_self _ _) f
              (List.mem_filter.mp hf).1
            exact strStartsWith_trans p.src_dir root _ hroot
              (strStartsWith_osJoin root f hnabs)
          · exact ih₂ y hy
    case isFalse hroot =>
      cases h

/-- Claim C8 witness: the amended statement at a concrete lowercase
configuration: of `a.jpg`, `b.JPG` and `c.png` under the root, exactly
the first two are yielded (the second differing from the configured
extension only in case), both prefixed by the source root. -/
theorem c8_witness :
    (enumerate_files
        ⟨"/src", "/dst", ".jpg", ".jpg", Option.none, Option.none, Option.none,
          Option.none, 4⟩
        [("/src", ["a.jpg", "c.png"]), ("/src/sub", ["b.JPG"])]
      = Except.ok ["/src/a.jpg", "/src/sub/b.JPG"]) ∧
    (∀ y, y ∈ ["/src/a.jpg", "/src/sub/b.JPG"] ↔
      ∃ rf ∈ [("/src", ["a.jpg", "c.png"]), ("/src/sub", ["b.JPG"])], ∃ f ∈ rf.2,
        strLower (splitext f).2
          = (⟨"/src", "/dst", ".jpg", ".jpg", Option.none, Option.none, Option.none,
              Option.none, 4⟩ : Preprocessor).input_extension ∧ y = osJoin rf.1 f) ∧
    (∀ y ∈ ["/src/a.jpg", "/src/sub/b.JPG"], strStartsWith y "/src" = true) := by
  refine ⟨by rfl, ?_⟩
  exact c8_enumerator_exact
    ⟨"/src", "/dst", ".jpg", ".jpg", Option.none, Option.none, Option.none,
      Option.none, 4⟩
    [("/src", ["a.jpg", "c.png"]), ("/src/sub", ["b.JPG"])]
    ["/src/a.jpg", "/src/sub/b.JPG"] (by rfl) (by decide)

/-- Claim C2 (amended): for a configuration constructed with a metadata
file name and a column list, a work item whose capability invocation
raises is handled without crashing the worker: the fault is swallowed,
the built row holds the relative path, `success=0`, an empty message and
`None` in every (non-reserved) configured attribute column, exactly that
row is appended to the log, and the filesystem is returned unchanged —
in particular, no placeholder (empty) file is written at the item's
destination path (the placeholder write sits inside the `try` block and
is skipped when the capability raises). -/
theorem c2_exception_swallowed_no_placeholder
    (cwd s d ext : String) (oext : Option String) (fname : String)
    (cols : List String) (np : Nat) (p : Preprocessor)
    (hp : mkPreprocessor cwd s d ext oext (some fname) (some cols) np = some p)
    (src_path dest_path : String) (fs : FS) (log : List (List PyVal)) :
    ∃ m, worker_build_metadata p false "" [] src_path = Except.ok m ∧
      dget? m "path" = some (PyVal.str (strDrop src_path (strLen p.src_dir + 1))) ∧
      dget? m "success" = some (PyVal.int 0) ∧
      dget? m "message" = some (PyVal.str "") ∧
      (∀ c, c ∈ cols → c ≠ "path" → c ≠ "success" → c ≠ "message" →
        dget? m c = some PyVal.none) ∧
      worker_process_item p (PreprocOutcome.raises []) src_path dest_path fs log
        = Except.ok (fs, log ++ [(["path", "success", "message"] ++ cols).map
            (fun k => (dget? m k).getD PyVal.none)]) := by
  obtain ⟨hf, hcols, horder⟩ :=
    mkPreprocessor_metadata_fields cwd s d ext oext fname cols np p hp
  obtain ⟨m, hbuild, hkeys, hpath, hsucc, hmsg, hnull⟩ :=
    worker_build_metadata_spec cols p hcols false "" []
      (by intro k hk; cases hk) src_path
  refine ⟨m, hbuild, hpath, hsucc, hmsg, ?_, ?_⟩
  · intro c hc h1 h2 h3
    exact hnull c hc h1 h2 h3 rfl
  · have hset : setEqB (dkeys m) (["path", "success", "message"] ++ cols) = true :=
      (setEqB_iff _ _).mpr hkeys
    simp only [worker_process_item, applyWrites, List.foldl_nil, hbuild,
      write_metadata, hf, horder, hset, if_true]

/-- Claim C2 witness: the amended statement at a concrete configured
preprocessor, item and filesystem. -/
theorem c2_witness :
    (mkPreprocessor "/" "/s" "/d" "jpg" Option.none (some "m.csv") (some ["width"]) 4
      = some ⟨"/s", "/d", ".jpg", ".jpg", some "m.csv", some ["width"],
          some ["path", "success", "message", "width"], some "/d/m.csv", 4⟩) ∧
    (∃ m, worker_build_metadata
        ⟨"/s", "/d", ".jpg", ".jpg", some "m.csv", some ["width"],
          some ["path", "success", "message", "width"], some "/d/m.csv", 4⟩
        false "" [] "/s/a.jpg" = Except.ok m ∧
      dget? m "path" = some (PyVal.str (strDrop "/s/a.jpg" (strLen "/s" + 1))) ∧
      dget? m "success" = some (PyVal.int 0) ∧
      dget? m "message" = some (PyVal.str "") ∧
      (∀ c, c ∈ ["width"] → c ≠ "path" → c ≠ "success" → c ≠ "message" →
        dget? m c = some PyVal.none) ∧
      worker_process_item
        ⟨"/s", "/d", ".jpg", ".jpg", some "m.csv", some ["width"],
          some ["path", "success", "message", "width"], some "/d/m.csv", 4⟩
        (PreprocOutcome.raises []) "/s/a.jpg" "/d/a.png" ⟨[], []⟩ []
        = Except.ok (⟨[], []⟩, [] ++ [(["path", "success", "message"] ++ ["width"]).map
            (fun k => (dget? m k).getD PyVal.none)])) := by
  refine ⟨by rfl, ?_⟩
  exact c2_exception_swallowed_no_placeholder "/" "/s" "/d" "jpg" Option.none "m.csv"
    ["width"] 4 _ (by rfl) "/s/a.jpg" "/d/a.png" ⟨[], []⟩ []

/-- Claim C10 (amended): the constructor accepts
`metadata_filename=None, metadata_columns=None`, and under that
configuration a worker that dequeues any work item — whatever the
capability does — hits an uncaught `TypeError` in the column-padding
loop (which iterates `self.metadata_columns`, i.e. `None`, outside the
fault-swallowing handler) and crashes on its first item; so such a run
processes no item, although a run with `metadata_filename=None` and a
non-`None` column list does process items (see the counterexample). -/
theorem c10_none_columns_worker_crashes
    (cwd s d ext : String) (oext : Option String) (np : Nat) (p : Preprocessor)
    (hp : mkPreprocessor cwd s d ext oext Option.none Option.none np = some p)
    (outcome : PreprocOutcome) (src_path dest_path : String)
    (fs : FS) (log : List (List PyVal)) :
    p.metadata_filename = Option.none ∧ p.metadata_columns = Option.none ∧
      worker_process_item p outcome src_path dest_path fs log
        = Except.error "TypeError: NoneType is not iterable" := by
  obtain ⟨hf, hcols⟩ :=
    mkPreprocessor_no_metadata_fields cwd s d ext oext Option.none np p hp
  refine ⟨hf, hcols, ?_⟩
  simp only [worker_process_item, worker_build_metadata, hcols]

/-- Claim C10 witness: the amended statement at a concrete
configuration and item, for a capability invocation that raises. -/
theorem c10_witness :
    (mkPreprocessor "/" "/s" "/d" "jpg" Option.none Option.none Option.none 4
      = some ⟨"/s", "/d", ".jpg", ".jpg", Option.none, Option.none, Option.none,
          Option.none, 4⟩) ∧
    worker_process_item
      ⟨"/s", "/d", ".jpg", ".jpg", Option.none, Option.none, Option.none, Option.none, 4⟩
      (PreprocOutcome.raises []) "/s/a.jpg" "/d/a.jpg" ⟨[], []⟩ []
      = Except.error "TypeError: NoneType is not iterable" := by
  refine ⟨by rfl, ?_⟩
  exact (c10_none_columns_worker_crashes "/" "/s" "/d" "jpg" Option.none 4 _ (by rfl)
    (PreprocOutcome.raises []) "/s/a.jpg" "/d/a.jpg" ⟨[], []⟩ []).2.2

/-- Claim C3 (amended): provided a metadata log is configured (a
metadata file name with a column list) and the capability writes its
destination file whenever it reports success (its contract), every file
under the source root whose extension matches, after a completed run,
satisfies at least one of: some file exists at the mapped destination
path (the transformed output, the empty placeholder, or a pre-existing
file), or a log row exists marking it failed (`path` = its relative
path, `success` = 0).  Without a configured log the property fails (see
the counterexample: a capability fault leaves no file and no row). -/
theorem c3_every_matching_file_covered
    (cwd s d ext : String) (oext : Option String) (fname : String)
    (cols : List String) (np : Nat) (p : Preprocessor)
    (hp : mkPreprocessor cwd s d ext oext (some fname) (some cols) np = some p)
    (fn : String → String → PreprocOutcome)
    (hcap : ∀ s' d' msg attrs ws, fn s' d' = PreprocOutcome.ok true msg attrs ws →
      ∃ c, (d', c) ∈ ws)
    (walkOut : List (String × List String)) (fs0 : FS) (st : RunState)
    (hrun : run p fn walkOut fs0 = Except.ok st)
    (root : String) (files : List String) (f : String)
    (hmem : (root, files) ∈ walkOut) (hfmem : f ∈ files)
    (hext : strLower (splitext f).2 = p.input_extension) :
    pathExists st.fs (dest_path_of p (osJoin root f)) = true ∨
      ∃ row ∈ st.log,
        row.get? 0 = some (PyVal.str (strDrop (osJoin root f) (strLen p.src_dir + 1))) ∧
        row.get? 1 = some (PyVal.int 0) := by
  obtain ⟨hflt, hcols, horder⟩ :=
    mkPreprocessor_metadata_fields cwd s d ext oext fname cols np p hp
  obtain ⟨_, _, hcover⟩ := run_walk_coverage fname cols p hflt hcols horder fn hcap
    walkOut ⟨fs0, [], Option.none, "", [], 0⟩ st (fun dd hdd => by cases hdd) hrun
  apply hcover (root, files) hmem f
  rw [matchingFiles, List.mem_filter]
  exact ⟨hfmem, decide_eq_true hext⟩

/-- Claim C3 witness: the amended statement on a one-file tree with a
configured log and a capability that raises: the run completes and the
file is covered by its `success=0` log row. -/
theorem c3_witness :
    (mkPreprocessor "/" "/src" "/dst" "jpg" Option.none (some "m.csv") (some ["width"]) 4
      = some ⟨"/src", "/dst", ".jpg", ".jpg", some "m.csv", some ["width"],
          some ["path", "success", "message", "width"], some "/dst/m.csv", 4⟩) ∧
    (run ⟨"/src", "/dst", ".jpg", ".jpg", some "m.csv", some ["width"],
          some ["path", "success", "message", "width"], some "/dst/m.csv", 4⟩
        (fun _ _ => PreprocOutcome.raises []) [("/src", ["a.jpg"])] ⟨[], []⟩
      = Except.ok ⟨⟨[], ["/dst/"]⟩,
          [[PyVal.str "a.jpg", PyVal.int 0, PyVal.str "", PyVal.none]],
          some "/src", "/dst/", [("/src/a.jpg", "/dst/a.jpg")], 1⟩) ∧
    (pathExists (⟨[], ["/dst/"]⟩ : FS)
        (dest_path_of ⟨"/src", "/dst", ".jpg", ".jpg", some "m.csv", some ["width"],
          some ["path", "success", "message", "width"], some "/dst/m.csv", 4⟩
          (osJoin "/src" "a.jpg")) = true ∨
      ∃ row ∈ [[PyVal.str "a.jpg", PyVal.int 0, PyVal.str "", PyVal.none]],
        row.get? 0 = some (PyVal.str (strDrop (osJoin "/src" "a.jpg")
          (strLen (⟨"/src", "/dst", ".jpg", ".jpg", some "m.csv", some ["width"],
            some ["path", "success", "message", "width"], some "/dst/m.csv", 4⟩ :
              Preprocessor).src_dir + 1))) ∧
        row.get? 1 = some (PyVal.int 0)) := by
  refine ⟨by rfl, by rfl, ?_⟩
  exact c3_every_matching_file_covered "/" "/src" "/dst" "jpg" Option.none "m.csv"
    ["width"] 4 _ (by rfl) (fun _ _ => PreprocOutcome.raises [])
    (fun s' d' msg attrs ws h => PreprocOutcome.noConfusion h)
    [("/src", ["a.jpg"])] ⟨[], []⟩ _ (by rfl) "/src" ["a.jpg"] "a.jpg"
    (by decide) (by decide) (by rfl)

/-- Claim C4: a run over a source tree all of whose enumerated matching
files already map to existing destination paths (the state after a
completed first run over an unchanged tree) completes, enqueues zero
work items, and appends zero rows to the metadata log: every file is
caught by the exists-check and skipped. -/
theorem c4_rerun_enqueues_nothing
    (p : Preprocessor) (fn : String → String → PreprocOutcome)
    (walkOut : List (String × List String)) (fs0 : FS)
    (hroots : ∀ rf ∈ walkOut, strStartsWith rf.1 p.src_dir = true)
    (hdest : ∀ rf ∈ walkOut, ∀ f ∈ matchingFiles p rf.2,
      pathExists fs0 (dest_path_of p (osJoin rf.1 f)) = true) :
    ∃ st, run p fn walkOut fs0 = Except.ok st ∧ st.enqueued = [] ∧ st.log = [] := by
  obtain ⟨st, hrun, hlog, henq⟩ := run_walk_skips p fn walkOut
    ⟨fs0, [], Option.none, "", [], 0⟩ (fun dd hdd => by cases hdd) hroots hdest
  exact ⟨st, hrun, henq, hlog⟩

/-- Claim C4 witness: re-running over a one-file tree whose destination
already exists enqueues nothing and logs nothing. -/
theorem c4_witness :
    (∀ rf ∈ [("/t/src", ["1.jpg"])], strStartsWith rf.1
      (⟨"/t/src", "/t/dst", ".jpg", ".png", some "m.csv", some ["width"],
        some ["path", "success", "message", "width"], some "/t/dst/m.csv", 4⟩ :
        Preprocessor).src_dir = true) ∧
    (∀ rf ∈ [("/t/src", ["1.jpg"])], ∀ f ∈ matchingFiles
        ⟨"/t/src", "/t/dst", ".jpg", ".png", some "m.csv", some ["width"],
          some ["path", "success", "message", "width"], some "/t/dst/m.csv", 4⟩ rf.2,
      pathExists ⟨[("/t/dst/1.png", "IMG")], ["/t/dst/"]⟩
        (dest_path_of
          ⟨"/t/src", "/t/dst", ".jpg", ".png", some "m.csv", some ["width"],
            some ["path", "success", "message", "width"], some "/t/dst/m.csv", 4⟩
          (osJoin rf.1 f)) = true) ∧
    (∃ st, run
        ⟨"/t/src", "/t/dst", ".jpg", ".png", some "m.csv", some ["width"],
          some ["path", "success", "message", "width"], some "/t/dst/m.csv", 4⟩
        (fun _ _ => PreprocOutcome.raises []) [("/t/src", ["1.jpg"])]
        ⟨[("/t/dst/1.png", "IMG")], ["/t/dst/"]⟩ = Except.ok st ∧
      st.enqueued = [] ∧ st.log = []) := by
  refine ⟨by decide, by decide, ?_⟩
  exact c4_rerun_enqueues_nothing
    ⟨"/t/src", "/t/dst", ".jpg", ".png", some "m.csv", some ["width"],
      some ["path", "success", "message", "width"], some "/t/dst/m.csv", 4⟩
    (fun _ _ => PreprocOutcome.raises []) [("/t/src", ["1.jpg"])]
    ⟨[("/t/dst/1.png", "IMG")], ["/t/dst/"]⟩ (by decide) (by decide)

/-- Claim C9: an enumerated source file whose mapped destination already
exists before the run is skipped for good: it is never enqueued, the
existing destination file's contents are never overwritten (no worker
writes to that path — the capability writes only to its own item's
destination, and the placeholder write targets a path that was checked
absent while this one is always present), and no metadata log row is
written carrying its relative path.  `walkWF` states what `os.walk`
guarantees about roots and file names. -/
theorem c9_preexisting_destination_untouched
    (cwd s d ext : String) (oext : Option String) (fname : String)
    (cols : List String) (np : Nat) (p : Preprocessor)
    (hp : mkPreprocessor cwd s d ext oext (some fname) (some cols) np = some p)
    (fn : String → String → PreprocOutcome)
    (hwrites : ∀ s' d' : String, ∀ w ∈ outcomeWrites (fn s' d'), w.1 = d')
    (walkOut : List (String × List String)) (hwf : walkWF p walkOut)
    (fs0 : FS) (st : RunState) (hrun : run p fn walkOut fs0 = Except.ok st)
    (root0 : String) (files0 : List String) (f0 : String)
    (hmem0 : (root0, files0) ∈ walkOut) (hf0 : f0 ∈ files0)
    (hex0 : pathExists fs0 (dest_path_of p (osJoin root0 f0)) = true) :
    (∀ it ∈ st.enqueued, it.1 ≠ osJoin root0 f0) ∧
    fsGet? st.fs.files (dest_path_of p (osJoin root0 f0))
      = fsGet? fs0.files (dest_path_of p (osJoin root0 f0)) ∧
    (∀ row ∈ st.log, row.get? 0
      ≠ some (PyVal.str (strDrop (osJoin root0 f0) (strLen p.src_dir + 1)))) := by
  obtain ⟨hwf1, hwf2, hwf3⟩ := hwf (root0, files0) hmem0
  have hsrc0 := osJoin_canonical p root0 f0 hwf1 hwf2 (hwf3 f0 hf0)
  obtain ⟨hflt, hcols, horder⟩ :=
    mkPreprocessor_metadata_fields cwd s d ext oext fname cols np p hp
  obtain ⟨hex', hget', henq', hlog'⟩ := run_walk_avoid fname cols p hflt hcols horder
    fn hwrites (osJoin root0 f0) hsrc0 walkOut hwf
    ⟨fs0, [], Option.none, "", [], 0⟩ st (fun dd hdd => by cases hdd) hrun hex0
  refine ⟨?_, hget', ?_⟩
  · intro it hit
    rcases henq' it hit with hit' | hne
    · cases hit'
    · exact hne
  · intro row hrow
    rcases hlog' row hrow with hrow' | hne
    · cases hrow'
    · exact hne

/-- Claim C9 witness: with `b = 2.jpg`'s destination `2.png` pre-existing
(contents `"OLD"`), a completed run over `{1.jpg, 2.jpg}` never enqueues
`2.jpg`, leaves `2.png` holding `"OLD"`, and writes no row for it. -/
theorem c9_witness :
    (mkPreprocessor "/" "/t/src" "/t/dst" "jpg" (some "png") (some "m.csv")
        (some ["width"]) 4
      = some ⟨"/t/src", "/t/dst", ".jpg", ".png", some "m.csv", some ["width"],
          some ["path", "success", "message", "width"], some "/t/dst/m.csv", 4⟩) ∧
    (run ⟨"/t/src", "/t/dst", ".jpg", ".png", some "m.csv", some ["width"],
          some ["path", "success", "message", "width"], some "/t/dst/m.csv", 4⟩
        (fun _ dp => PreprocOutcome.ok true "" [("width", PyVal.int 10)] [(dp, "IMG")])
        [("/t/src", ["1.jpg", "2.jpg"])] ⟨[("/t/dst/2.png", "OLD")], []⟩
      = Except.ok ⟨⟨[("/t/dst/2.png", "OLD"), ("/t/dst/1.png", "IMG")], ["/t/dst/"]⟩,
          [[PyVal.str "1.jpg", PyVal.int 1, PyVal.str "", PyVal.int 10]],
          some "/t/src", "/t/dst/", [("/t/src/1.jpg", "/t/dst/1.png")], 1⟩) ∧
    ((∀ it ∈ [("/t/src/1.jpg", "/t/dst/1.png")], it.1 ≠ osJoin "/t/src" "2.jpg") ∧
      fsGet? [("/t/dst/2.png", "OLD"), ("/t/dst/1.png", "IMG")]
        (dest_path_of ⟨"/t/src", "/t/dst", ".jpg", ".png", some "m.csv", some ["width"],
          some ["path", "success", "message", "width"], some "/t/dst/m.csv", 4⟩
          (osJoin "/t/src" "2.jpg"))
        = fsGet? [("/t/dst/2.png", "OLD")]
          (dest_path_of ⟨"/t/src", "/t/dst", ".jpg", ".png", some "m.csv", some ["width"],
            some ["path", "success", "message", "width"], some "/t/dst/m.csv", 4⟩
            (osJoin "/t/src" "2.jpg")) ∧
      (∀ row ∈ [[PyVal.str "1.jpg", PyVal.int 1, PyVal.str "", PyVal.int 10]],
        row.get? 0 ≠ some (PyVal.str (strDrop (osJoin "/t/src" "2.jpg")
          (strLen (⟨"/t/src", "/t/dst", ".jpg", ".png", some "m.csv", some ["width"],
            some ["path", "success", "message", "width"], some "/t/dst/m.csv", 4⟩ :
              Preprocessor).src_dir + 1))))) := by
  refine ⟨by rfl, by rfl, ?_⟩
  exact c9_preexisting_destination_untouched "/" "/t/src" "/t/dst" "jpg" (some "png")
    "m.csv" ["width"] 4 _ (by rfl)
    (fun _ dp => PreprocOutcome.ok true "" [("width", PyVal.int 10)] [(dp, "IMG")])
    (by
      intro s' d' w hw
      simp only [outcomeWrites] at hw
      rw [List.mem_singleton.mp hw])
    [("/t/src", ["1.jpg", "2.jpg"])] (by unfold walkWF; decide)
    ⟨[("/t/dst/2.png", "OLD")], []⟩ _ (by rfl)
    "/t/src" ["1.jpg", "2.jpg"] "2.jpg" (by decide) (by decide) (by decide)

/-- Claim C7: the metadata append operation.  When no log path is
configured it is a no-op (`ok none`: no record, no file access, no
error).  When a log path is configured (so a column order is set), it
fails with the assertion error exactly when the row's key set does not
equal the set of configured columns, and otherwise appends exactly one
record whose values are ordered by the configured column order.  (The
per-call open/append/close of the log file is I/O outside the model; the
model returns the single appended record.) -/
theorem c7_write_metadata_contract (p : Preprocessor) (d : Dict) :
    (p.metadata_filename = Option.none → write_metadata p d = Except.ok Option.none) ∧
    (∀ fname order, p.metadata_filename = some fname → p.column_order = some order →
      ((write_metadata p d = Except.error "AssertionError") ↔
        ¬ (∀ x, x ∈ dkeys d ↔ x ∈ order)) ∧
      ((∀ x, x ∈ dkeys d ↔ x ∈ order) →
        write_metadata p d
          = Except.ok (some (order.map (fun k => (dget? d k).getD PyVal.none))))) := by
  constructor
  · intro h
    simp only [write_metadata, h]
  · intro fname order hf ho
    simp only [write_metadata, hf, ho]
    by_cases hset : setEqB (dkeys d) order = true
    · rw [if_pos hset]
      have hmem := (setEqB_iff _ _).mp hset
      exact ⟨by simp [hmem], fun _ => rfl⟩
    · rw [if_neg hset]
      have hmem : ¬ (∀ x, x ∈ dkeys d ↔ x ∈ order) := fun h =>
        hset ((setEqB_iff _ _).mpr h)
      exact ⟨by simp [hmem], fun h => absurd h hmem⟩

/-- Claim C7 witness: the contract applied to a concrete configured
preprocessor and a well-formed row. -/
theorem c7_witness :
    ((⟨"/s", "/d", ".jpg", ".jpg", some "m.csv", some ["width"],
        some ["path", "success", "message", "width"], some "/d/m.csv", 4⟩ :
        Preprocessor).metadata_filename = some "m.csv") ∧
    (∀ x, x ∈ dkeys [("path", PyVal.str "a.jpg"), ("success", PyVal.int 1),
        ("message", PyVal.str ""), ("width", PyVal.int 10)]
      ↔ x ∈ ["path", "success", "message", "width"]) ∧
    write_metadata
      ⟨"/s", "/d", ".jpg", ".jpg", some "m.csv", some ["width"],
        some ["path", "success", "message", "width"], some "/d/m.csv", 4⟩
      [("path", PyVal.str "a.jpg"), ("success", PyVal.int 1),
       ("message", PyVal.str ""), ("width", PyVal.int 10)]
    = Except.ok (some [PyVal.str "a.jpg", PyVal.int 1, PyVal.str "", PyVal.int 10]) := by
  refine ⟨rfl, (setEqB_iff _ _).mp (by decide), ?_⟩
  exact ((c7_write_metadata_contract
      ⟨"/s", "/d", ".jpg", ".jpg", some "m.csv", some ["width"],
        some ["path", "success", "message", "width"], some "/d/m.csv", 4⟩
      [("path", PyVal.str "a.jpg"), ("success", PyVal.int 1),
       ("message", PyVal.str ""), ("width", PyVal.int 10)]).2 "m.csv"
      ["path", "success", "message", "width"] rfl rfl).2
    ((setEqB_iff _ _).mp (by decide))

end FilePreproc
